import Mathlib

/-!
Shallow embedding of `src/ez.py` (active learning / Bayes classifier engine).

Conventions used throughout:
* Python floats are modelled exactly: rational arithmetic (`ℚ`) where the
  source only adds/multiplies/divides, and `ℝ` (with `Real.sqrt`, `Real.log`,
  `Real.exp`, `Real.logb`) where the source takes roots, logs or powers.
* Python `int(x)` truncates toward zero: `pytrunc`.
* A cell of a row is a number, a string, or the missing sentinel `"?"
  (modelled by the dedicated constructor `Cell.missing`).
* Fallible code (Python exceptions) is modelled with `Except PyErr` or an
  explicit error flag which also carries the partially mutated state, since
  Python mutations made before a `raise` survive.
* `ℚ`-division by zero is Lean's junk value `0`; the spots where Python would
  instead raise are noted in comments and excluded by theorem hypotheses.
-/

namespace Ez

/-- `big = 1E32`, the module-level infinity sentinel of `ez.py`. -/
def big : ℚ := 10 ^ 32

/-- `tiny = 1/big`. -/
def tiny : ℚ := 1 / big

/-- Python `int()` on a rational: truncation toward zero. -/
def pytrunc (q : ℚ) : ℤ := if q < 0 then ⌈q⌉ else ⌊q⌋

/-- Python `int()` on a real: truncation toward zero. -/
noncomputable def pytruncR (x : ℝ) : ℤ := if x < 0 then ⌈x⌉ else ⌊x⌋

/-- Real `≤` as a `Bool` (classically decided); used where the source
compares floats computed from logs/roots. -/
noncomputable def rleB (a b : ℝ) : Bool := @decide (a ≤ b) (Classical.propDecidable _)

/-- Real `<` as a `Bool` (classically decided). -/
noncomputable def rltB (a b : ℝ) : Bool := @decide (a < b) (Classical.propDecidable _)

/-- A scalar cell of a row: number, string, or the missing sentinel `"?"`. -/
inductive Cell where
  | num (q : ℚ)
  | str (s : String)
  | missing
deriving DecidableEq, Repr

/-- `Row`: a list of cells (class `Row` in the source). -/
abbrev Row := List Cell

/-- `Classes`: a dictionary, one key for each class, in insertion order. -/
abbrev Classes := List (String × List Row)

/-- Python `<` on cells of the same kind; on mixed kinds Python raises
`TypeError` — junk `false` here, never reached by well-typed columns. -/
def Cell.ltB : Cell → Cell → Bool
  | .num a, .num b => a < b
  | .str a, .str b => a < b
  | _, _ => false

/-- Python `<=` on cells of the same kind (junk `false` on mixed kinds). -/
def Cell.leB : Cell → Cell → Bool
  | .num a, .num b => a ≤ b
  | .str a, .str b => a ≤ b
  | _, _ => false

/-- Python `min(x, l)`: keeps `x`, replaces it when `l < x`. -/
def pymin (x l : Cell) : Cell := if Cell.ltB l x then l else x

/-- Python `max(x, h)`: keeps `x`, replaces it when `x < h`. -/
def pymax (x h : Cell) : Cell := if Cell.ltB x h then h else x

/-- `Counter[y] += k`: bump an association list, inserting at the end on a
new key (Python dicts keep insertion order). -/
def bump {α : Type} [DecidableEq α] : List (α × ℕ) → α → ℕ → List (α × ℕ)
  | [], y, k => [(y, k)]
  | (z, n) :: rest, y, k =>
    if z = y then (z, n + k) :: rest else (z, n) :: bump rest y k

/-- `Counter + Counter`: add counts keywise (all counts here are positive). -/
def cadd {α : Type} [DecidableEq α] (a b : List (α × ℕ)) : List (α × ℕ) :=
  b.foldl (fun acc p => bump acc p.1 p.2) a

/-- `entropy(d)` from `ez.py`: returns the pair
`(-Σ n/N·log2(n/N), N)` over the positive counts of `d`. -/
noncomputable def entropy {α : Type} (d : List (α × ℕ)) : ℝ × ℕ :=
  let ns := (d.map Prod.snd).filter (fun n => 0 < n)
  let N : ℕ := ns.sum
  (-(ns.map (fun n => (n / N : ℝ) * Real.logb 2 ((n : ℝ) / N))).sum, N)

/-- Python exceptions that the embedded code can raise. -/
inductive PyErr where
  | attributeError
  | indexError
  | typeError
  | valueError
  | recursionError
deriving DecidableEq, Repr

/-- Class `BIN`: klass symbols seen between `lo` and `hi` (the display-only
auto-increment `id` is dropped; `at` is a Lean keyword, renamed `att`). -/
structure BIN where
  att : ℕ
  txt : String
  lo : Cell
  hi : Cell
  ys : List (String × ℕ)
deriving DecidableEq, Repr

/-- `BIN.add(x, y)`: widen `[lo,hi]` to cover `x`, count the klass `y`. -/
def BIN.add (b : BIN) (x : Cell) (y : String) : BIN :=
  { b with lo := pymin x b.lo, hi := pymax x b.hi, ys := bump b.ys y 1 }

/-- `BIN.merge(i, j, small)`: `None` on different columns; otherwise the
spanning bin `k` when either bin is too small or the combination is no less
simple (entropy comparison), else `None`. -/
noncomputable def BIN.merge (i j : BIN) (small : ℚ) : Option BIN :=
  if i.att = j.att then
    let k : BIN := { att := i.att, txt := i.txt, lo := pymin i.lo j.lo,
                     hi := pymax i.hi j.hi, ys := cadd i.ys j.ys }
    let ei := (entropy i.ys).1
    let ni := (entropy i.ys).2
    let ej := (entropy j.ys).1
    let nj := (entropy j.ys).2
    let ek := (entropy k.ys).1
    let nk := (entropy k.ys).2
    if (ni : ℚ) < small ∨ (nj : ℚ) < small then some k
    else if rleB ek ((ni * ei + nj * ej) / nk) then some k
    else none
  else none

/-- `BIN.selects(row)`: the row's value at this bin's column is missing, or
equals a degenerate `lo == hi`, or lies in `[lo, hi)`.  (On a too-short row
Python raises `IndexError`; the `getD` default keeps the function total and
is excluded by hypotheses wherever it matters.) -/
def BIN.selects (b : BIN) (row : Row) : Bool :=
  let x := row.getD b.att Cell.missing
  x == Cell.missing || (b.lo == x && x == b.hi) || (Cell.leB b.lo x && Cell.ltB x b.hi)

/-- Loop of `BIN.selectsRejects`: Python executes `what.add(row)` on the
first row of the first nonempty class, but `what` is a plain `dict`, which
has no attribute `add` — so the call raises `AttributeError` there.  Classes
whose row lists are all empty fall through to `return yes,no` with both
dictionaries still empty. -/
def selectsRejectsGo (b : BIN) : Classes → Except PyErr (Classes × Classes)
  | [] => .ok ([], [])
  | (_, rows) :: rest =>
    match rows with
    | [] => selectsRejectsGo b rest
    | _ :: _ => .error .attributeError

/-- `BIN.selectsRejects(classes)` as written in the source: raises
`AttributeError` via `what.add(row)` as soon as any row is processed. -/
def BIN.selectsRejects (b : BIN) (classes : Classes) : Except PyErr (Classes × Classes) :=
  selectsRejectsGo b classes

/-- One left-to-right pass of `merges`: try to merge each adjacent pair;
on success consume both and continue after them, else keep the left bin. -/
def mergesScan (m : BIN → BIN → Option BIN) : List BIN → List BIN
  | [] => []
  | [a] => [a]
  | a :: b :: rest =>
    match m a b with
    | some c => c :: mergesScan m rest
    | none => a :: mergesScan m (b :: rest)

theorem mergesScan_length_le (m : BIN → BIN → Option BIN) :
    ∀ l : List BIN, (mergesScan m l).length ≤ l.length
  | [] => le_refl _
  | [a] => le_refl _
  | a :: b :: rest => by
    simp only [mergesScan]
    cases m a b with
    | some c =>
      simpa using Nat.le_succ_of_le (mergesScan_length_le m rest)
    | none =>
      simpa using mergesScan_length_le m (b :: rest)

/-- `merges(b4, merge)`: repeat full scans until a pass merges nothing
(fixed point), returning the original list on the final pass. -/
def merges (b4 : List BIN) (m : BIN → BIN → Option BIN) : List BIN :=
  let now := mergesScan m b4
  if h : now.length = b4.length then b4 else merges now m
termination_by b4.length
decreasing_by
  exact Nat.lt_of_le_of_ne (mergesScan_length_le m b4) h

/-- The boundary-stitching loop of `NUM.binsComplete` after the first bin:
each bin's `lo` becomes the previous bin's `hi`, and the last bin's `hi`
becomes `big`. -/
def stitchGo (prevHi : Cell) : List BIN → List BIN
  | [] => []
  | [b] => [{ b with lo := prevHi, hi := Cell.num big }]
  | b :: rest => { b with lo := prevHi } :: stitchGo b.hi rest

/-- Boundary stitching of `NUM.binsComplete`: `bins[0].lo = -big`,
`bins[-1].hi = big`, `bins[j].lo = bins[j-1].hi`.  (Python raises
`IndexError` on an empty list; junk `[]` here, excluded by hypotheses.) -/
def stitch : List BIN → List BIN
  | [] => []
  | [b] => [{ b with lo := Cell.num (-big), hi := Cell.num big }]
  | b :: rest => { b with lo := Cell.num (-big) } :: stitchGo b.hi rest

/-- The configuration object `the`, parsed from the docstring (only the
knobs the core reads).  `best` is kept rational and cast where the source
uses it as a float exponent. -/
structure Config where
  Bins : ℕ
  k : ℚ
  m : ℚ
  budget0 : ℕ
  Budget : ℕ
  best : ℚ
  Top : ℚ
  leaf : ℕ
deriving DecidableEq, Repr

/-- The default settings of `ez.py`'s docstring. -/
def the : Config :=
  { Bins := 16, k := 1, m := 2, budget0 := 4, Budget := 16,
    best := 1 / 2, Top := 4 / 5, leaf := 2 }

/-- Class `NUM` (`at` renamed `att`): count, running mean/M2, min/max, and
`heaven` fixed from the trailing character of the name. -/
structure NUM where
  n : ℕ
  att : ℕ
  txt : String
  mu : ℚ
  m2 : ℚ
  lo : ℚ
  hi : ℚ
  heaven : ℚ
deriving DecidableEq, Repr

/-- `NUM.__init__`. -/
def NUM.mk0 (att : ℕ) (txt : String) : NUM :=
  { n := 0, att := att, txt := txt, mu := 0, m2 := 0, lo := big, hi := -big,
    heaven := if txt.back = '-' then 0 else 1 }

/-- The Welford update of `NUM.add` on a numeric value. -/
def NUM.addQ (c : NUM) (x : ℚ) : NUM :=
  let n := c.n + 1
  let d := x - c.mu
  let mu := c.mu + d / n
  { c with
    n := n
    mu := mu
    m2 := c.m2 + d * (x - mu)
    lo := min x c.lo
    hi := max x c.hi }

/-- `NUM.add(x)` on a cell.  A missing cell is skipped; on a string cell
Python increments `n` and then raises `TypeError` at `x - i.mu`, so the
error flag is set with `n` already bumped (mutation survives the raise). -/
def NUM.add (c : NUM) (x : Cell) : NUM × Bool :=
  match x with
  | .missing => (c, false)
  | .num q => (c.addQ q, false)
  | .str _ => ({ c with n := c.n + 1 }, true)

/-- `NUM.norm(x)` on a numeric value: `(x - lo)/(hi - lo + tiny)`. -/
def NUM.normQ (c : NUM) (x : ℚ) : ℚ := (x - c.lo) / (c.hi - c.lo + tiny)

/-- `NUM.d2h(x)` on a numeric value: `|norm(x) - heaven|`. -/
def NUM.d2hQ (c : NUM) (x : ℚ) : ℚ := |c.normQ x - c.heaven|

/-- `NUM.bin(x)`: equal-width bin index `min(Bins-1, int(Bins*norm(x)))`. -/
def NUM.binKey (cfg : Config) (c : NUM) (x : ℚ) : ℤ :=
  min ((cfg.Bins : ℤ) - 1) (pytrunc (cfg.Bins * c.normQ x))

/-- `NUM.div()`: `0` when `n < 2`, else the sample deviation
`(m2/(n-1))**.5`. -/
noncomputable def NUM.div (c : NUM) : ℝ :=
  if c.n < 2 then 0 else Real.sqrt ((c.m2 : ℝ) / ((c.n : ℝ) - 1))

/-- `NUM.mid()`: the running mean. -/
def NUM.mid (c : NUM) : ℚ := c.mu

/-- `NUM.like(x, _)`: clipped Gaussian density at `x`. -/
noncomputable def NUM.like (c : NUM) (x : ℚ) : ℝ :=
  let v := c.div ^ 2 + (tiny : ℝ)
  let nom := Real.exp (-1 * ((x : ℝ) - (c.mu : ℝ)) ^ 2 / (2 * v)) + (tiny : ℝ)
  let denom := Real.sqrt (2 * Real.pi * v)
  min 1 (nom / (denom + (tiny : ℝ)))

/-- Class `SYM` (`at` renamed `att`): count and frequency table. -/
structure SYM where
  n : ℕ
  att : ℕ
  txt : String
  has : List (Cell × ℕ)
deriving DecidableEq, Repr

/-- `SYM.add(x)`: skip missing, else count the value. -/
def SYM.add (c : SYM) (x : Cell) : SYM × Bool :=
  match x with
  | .missing => (c, false)
  | x => ({ c with n := c.n + 1, has := bump c.has x 1 }, false)

/-- `SYM.div()` exactly as written in the source: `return entropy(i.has)`,
whose value is the PAIR `(e, N)` returned by `entropy`, not a number
(the annotation `-> float` notwithstanding). -/
noncomputable def SYM.div (c : SYM) : ℝ × ℕ := entropy c.has

/-- `SYM.like(x, prior)`: m-estimate smoothed frequency. -/
def SYM.like (cfg : Config) (c : SYM) (x : Cell) (prior : ℚ) : ℚ :=
  (((c.has.lookup x).getD 0 : ℚ) + cfg.m * prior) / ((c.n : ℚ) + cfg.m)

/-- A column is a `NUM` or a `SYM`. -/
inductive Col where
  | num (c : NUM)
  | sym (c : SYM)
deriving DecidableEq, Repr

/-- The column's index. -/
def Col.att : Col → ℕ
  | .num c => c.att
  | .sym c => c.att

/-- The column's name. -/
def Col.txt : Col → String
  | .num c => c.txt
  | .sym c => c.txt

/-- Is the column a `NUM`? -/
def Col.isNum : Col → Bool
  | .num _ => true
  | .sym _ => false

/-- `col.add(x)` with the error flag of the `NUM` string case. -/
def Col.add : Col → Cell → Col × Bool
  | .num c, x => let (c', e) := c.add x; (.num c', e)
  | .sym c, x => let (c', e) := c.add x; (.sym c', e)

/-- `col.like(x, prior)` dispatch.  A non-numeric cell in a `NUM` column
would raise `TypeError` in Python (junk `0` here, excluded by hypotheses
about well-typed rows). -/
noncomputable def Col.like (cfg : Config) : Col → Cell → ℚ → ℝ
  | .sym s, x, prior => ((SYM.like cfg s x prior : ℚ) : ℝ)
  | .num c, .num q, _ => c.like q
  | .num _, _, _ => 0

/-- `col.d2h(x)` dispatch: only `NUM` has `d2h` (a `SYM` in `cols.y` would
raise `AttributeError`, and a missing goal cell `TypeError`; junk `0`). -/
def Col.d2h : Col → Cell → ℚ
  | .num c, .num q => c.d2hQ q
  | _, _ => 0

/-- Class `COLS`.  In Python `x` and `y` hold references aliased with
`all`; the aliasing is modelled by storing indices into `all`. -/
structure COLS where
  x : List ℕ
  y : List ℕ
  all : List Col
  names : List String
  klass : Option ℕ
deriving DecidableEq, Repr

/-- Make the column for one header name: `NUM` iff the first character is
upper case. -/
def colOf (att : ℕ) (txt : String) : Col :=
  if txt.front.isUpper then .num (NUM.mk0 att txt) else .sym ⟨0, att, txt, []⟩

/-- `COLS.__init__(names)`: route each column into `all`, and into `x` or
`y` unless ignored (`X`); a `!` column is the klass. -/
def COLS.init (names : List String) : COLS :=
  names.enum.foldl
    (fun c p =>
      let att := p.1
      let txt := p.2
      let z := txt.back
      let c := { c with all := c.all ++ [colOf att txt] }
      if z = 'X' then c
      else
        let c :=
          if z = '!' ∨ z = '+' ∨ z = '-' then { c with y := c.y ++ [att] }
          else { c with x := c.x ++ [att] }
        if z = '!' then { c with klass := some att } else c)
    { x := [], y := [], all := [], names := names, klass := none }

/-- The comprehension of `COLS.add`, processing columns left to right.  The
first column whose index falls outside the row raises `IndexError` before
touching that column; columns already processed keep their updates. -/
def colsAddGo : List Col → Row → List Col × Bool
  | [], _ => ([], false)
  | col :: rest, row =>
    if h : col.att < row.length then
      let ce := col.add (row.get ⟨col.att, h⟩)
      if ce.2 then (ce.1 :: rest, true)
      else
        let re := colsAddGo rest row
        (ce.1 :: re.1, re.2)
    else (col :: rest, true)

/-- `COLS.add(row)` with the partially-mutated state and an error flag. -/
def COLS.add (c : COLS) (row : Row) : COLS × Bool :=
  let (all', err) := colsAddGo c.all row
  ({ c with all := all' }, err)

/-- Class `DATA` (after the header row has installed `cols`). -/
structure DATA where
  rows : List Row
  cols : COLS
deriving DecidableEq, Repr

/-- `DATA.add(row)`: summarize into `cols`, then append the row — unless the
summarization raised, in which case the row is never appended while the
columns keep the mutations made before the raise. -/
def DATA.add (d : DATA) (row : Row) : DATA × Bool :=
  let (cols', err) := d.cols.add row
  if err then ({ rows := d.rows, cols := cols' }, true)
  else ({ rows := d.rows ++ [row], cols := cols' }, false)

/-- `DATA([names])`: a fresh dataset whose first (header) row built `cols`. -/
def DATA.mk0 (names : List String) : DATA := { rows := [], cols := COLS.init names }

/-- Adding a list of rows.  (In Python an error row aborts the whole
constructor; this total fold coincides with the source whenever no row
errs, which the theorems guarantee by hypothesis.) -/
def DATA.adds (d : DATA) (lst : List Row) : DATA :=
  lst.foldl (fun d r => (d.add r).1) d

/-- The dependent columns `i.cols.y` (dereferencing the aliased indices). -/
def DATA.ycols (d : DATA) : List Col :=
  d.cols.y.filterMap (fun i => d.cols.all.get? i)

/-- The independent columns `i.cols.x`. -/
def DATA.xcols (d : DATA) : List Col :=
  d.cols.x.filterMap (fun i => d.cols.all.get? i)

/-- The radicand of `DATA.d2h`: mean of the squared per-goal
distances-to-heaven, in exact arithmetic. -/
def DATA.d2hSq (d : DATA) (row : Row) : ℚ :=
  ((d.ycols.map (fun c => Col.d2h c (row.getD c.att Cell.missing) ^ 2)).sum) /
    (d.ycols.length : ℚ)

/-- `DATA.d2h(row)` = `(Σ d2h² / |y|) ** .5`. -/
noncomputable def DATA.d2h (d : DATA) (row : Row) : ℝ := Real.sqrt (d.d2hSq row)

/-- The sort key comparison of `DATA.order`.  Comparing the exact radicands
is equivalent to comparing the square roots (see `d2hLe_iff`). -/
def d2hLe (d : DATA) (a b : Row) : Bool := decide (d.d2hSq a ≤ d.d2hSq b)

/-- `DATA.order()`: stable sort of the rows, ascending by `d2h`. -/
def DATA.order (d : DATA) : DATA := { d with rows := d.rows.mergeSort (d2hLe d) }

/-- `DATA.clone(lst, order)`: same header, fresh statistics, then
optionally ranked. -/
def DATA.clone (d : DATA) (lst : List Row) (order : Bool) : DATA :=
  let d' := (DATA.mk0 d.cols.names).adds lst
  if order then d'.order else d'

/-- `DATA.loglike(row, nall, nh)`: log prior plus log likelihoods of the
non-missing independent values, positive terms only. -/
noncomputable def DATA.loglike (cfg : Config) (d : DATA) (row : Row) (nall nh : ℕ) : ℝ :=
  let prior : ℚ := ((d.rows.length : ℚ) + cfg.k) / ((nall : ℚ) + cfg.k * (nh : ℚ))
  let likes : List ℝ :=
    ((d.xcols.filter (fun c => !(row.getD c.att Cell.missing == Cell.missing))).map
      (fun c => Col.like cfg c (row.getD c.att Cell.missing) prior))
  (((likes ++ [((prior : ℚ) : ℝ)]).filter (fun v => rltB 0 v)).map Real.log).sum

/-- `NUM.binsComplete(bins, small)`: entropy-merge to a fixed point, then
stitch the boundaries to span `(-big, big)`. -/
noncomputable def NUM.binsComplete (bins : List BIN) (small : ℚ) : List BIN :=
  stitch (merges bins (fun a b => a.merge b small))

/-- The iteration of `COL.bins`: the stream of `(value, klass)` pairs,
class by class, skipping missing values.  (Indexing a too-short row would
raise `IndexError` in Python; `getD` turns it into a skipped missing.) -/
def classPairs (att : ℕ) (classes : Classes) : List (Cell × String) :=
  classes.flatMap (fun p =>
    p.2.filterMap (fun row =>
      let x := row.getD att Cell.missing
      if x = Cell.missing then none else some (x, p.1)))

/-- `send2bin(x, y)`: place the value into the dictionary entry of its bin
key (creating a fresh single-value bin on a new key, `if k not in out`) and
count the klass. -/
def send2bin {K : Type} [DecidableEq K] (binOf : Cell → K) (att : ℕ) (txt : String)
    (out : List (K × BIN)) (x : Cell) (y : String) : List (K × BIN) :=
  let k := binOf x
  let out :=
    if k ∉ out.map Prod.fst then
      out ++ [(k, { att := att, txt := txt, lo := x, hi := x, ys := [] })]
    else out
  out.map (fun p => if p.1 = k then (p.1, p.2.add x y) else p)

/-- The bin dictionary accumulated by `COL.bins` before sorting. -/
def binsRaw {K : Type} [DecidableEq K] (binOf : Cell → K) (att : ℕ) (txt : String)
    (classes : Classes) : List (K × BIN) :=
  (classPairs att classes).foldl (fun out p => send2bin binOf att txt out p.1 p.2) []

/-- `sorted(out.values(), key=lambda z: z.lo)`. -/
def binsSorted {K : Type} [DecidableEq K] (binOf : Cell → K) (att : ℕ) (txt : String)
    (classes : Classes) : List BIN :=
  ((binsRaw binOf att txt classes).map Prod.snd).mergeSort
    (fun a b => Cell.leB a.lo b.lo)

/-- The bin key of a column: `SYM.bin` is the identity, `NUM.bin` the
equal-width index (on a non-numeric cell Python's arithmetic would raise;
junk `0`, unreachable for well-typed columns). -/
def Col.binKey (cfg : Config) : Col → Cell → Cell ⊕ ℤ
  | .sym _, x => .inl x
  | .num c, .num q => .inr (c.binKey cfg q)
  | .num _, _ => .inr 0

/-- `COL.bins(classes)` with the default
`small = (Σ class sizes)/the.Bins`: group values into initial bins, sort by
`lo`, and finalize (`SYM.binsComplete` returns the bins unchanged). -/
noncomputable def Col.bins (cfg : Config) (c : Col) (classes : Classes) : List BIN :=
  let small : ℚ := ((classes.map (fun p => p.2.length)).sum : ℚ) / (cfg.Bins : ℚ)
  match c with
  | .sym s => binsSorted (Col.binKey cfg (.sym s)) s.att s.txt classes
  | .num nc =>
    NUM.binsComplete (binsSorted (Col.binKey cfg (.num nc)) nc.att nc.txt classes) small

/-- The helper `like(row, data)` of `smo`. -/
noncomputable def smoLike (cfg : Config) (row : Row) (data : DATA) : ℝ :=
  data.loglike cfg row data.rows.length 2

/-- The helper `acquire(best, rest, rows)` of `smo`: rank the pool by the
acquisition score (descending, via the negated key) and keep the top
`int(len(rows)*Top)`. -/
noncomputable def acquire (cfg : Config) (score : ℝ → ℝ → ℝ) (best rest : DATA)
    (rows : List Row) : List Row :=
  let chop := (pytrunc ((rows.length : ℚ) * cfg.Top)).toNat
  (rows.mergeSort (fun a b =>
    rleB (-(score (smoLike cfg a best) (smoLike cfg a rest)))
         (-(score (smoLike cfg b best) (smoLike cfg b rest))))).take chop

/-- The loop state of `smo` (`iters` counts executed iterations; it is an
embedding artifact used to state the iteration bound). -/
structure SmoState where
  done : List Row
  todo : List Row
  data1 : DATA
deriving Repr

/-- The size `n = int(len(done)**the.best + .5)` of the best prefix. -/
noncomputable def smoN (cfg : Config) (s : SmoState) : ℕ :=
  (pytruncR (((s.done.length : ℝ) ^ ((cfg.best : ℝ)) : ℝ) + 1 / 2)).toNat

/-- The `best` sub-model of one `smo` iteration: a fresh clone of the first
`n` ranked done rows. -/
noncomputable def smoBestD (cfg : Config) (data0 : DATA) (s : SmoState) : DATA :=
  data0.clone (s.data1.rows.take (smoN cfg s)) false

/-- The `rest` sub-model of one `smo` iteration. -/
noncomputable def smoRestD (cfg : Config) (data0 : DATA) (s : SmoState) : DATA :=
  data0.clone (s.data1.rows.drop (smoN cfg s)) false

/-- One iteration of the `smo` loop body (after the `len(todo) < 3` test):
`top,*todo = acquire(...)`, `done.append(top)`, re-clone and re-rank.  On an
empty acquisition Python would raise `ValueError` while unpacking; the junk
branch returns the state unchanged and is excluded by hypotheses. -/
noncomputable def smoStep (cfg : Config) (score : ℝ → ℝ → ℝ) (data0 : DATA)
    (s : SmoState) : SmoState :=
  match acquire cfg score (smoBestD cfg data0 s) (smoRestD cfg data0 s) s.todo with
  | [] => s
  | top :: todo' =>
    let done' := s.done ++ [top]
    { done := done', todo := todo', data1 := data0.clone done' true }

/-- `for i in range(the.Budget): if len(todo) < 3: break; ...` as a
fuel-indexed loop (the fuel is exactly the remaining range iterations). -/
noncomputable def smoLoop (cfg : Config) (score : ℝ → ℝ → ℝ) (data0 : DATA) :
    ℕ → SmoState → SmoState
  | 0, s => s
  | fuel + 1, s =>
    if s.todo.length < 3 then s
    else smoLoop cfg score data0 fuel (smoStep cfg score data0 s)

/-- `smo(data0, score)`.  The caller's random shuffle of `data0.rows` is
passed explicitly as `shuffled` (any permutation, by hypothesis); the
result is the returned row together with `data0`'s final state, whose only
mutation is the in-place shuffle. -/
noncomputable def smo (cfg : Config) (data0 : DATA) (shuffled : List Row)
    (score : ℝ → ℝ → ℝ) : Row × DATA :=
  let data0' : DATA := { data0 with rows := shuffled }
  let done := shuffled.take cfg.budget0
  let todo := shuffled.drop cfg.budget0
  let s0 : SmoState := { done := done, todo := todo, data1 := data0'.clone done true }
  let sF := smoLoop cfg score data0' cfg.Budget s0
  ((sF.data1.rows.headD [], data0'))

/-- A node of the explanation tree: the `OBJ(isLeaf=True, yes=classes,
lvl=lvl)` leaves and the `OBJ(isLeaf=False, ...)` splits. -/
inductive TreeNode where
  | leaf (yes : Classes) (lvl : ℕ)
  | node (lvl : ℕ) (att : ℕ) (txt : String) (lo hi : Cell) (yes no : TreeNode)
deriving Repr

/-- `classes[k]` (Python raises `KeyError` on a missing key; junk `[]`). -/
def classesGet (classes : Classes) (k : String) : List Row :=
  (classes.lookup k).getD []

/-- The bin scorer `order(bin)` inside `tree`: count selected best/rest
rows and score the two normalized fractions. -/
def binScore (score : ℚ → ℚ → ℚ) (best : String) (BEST REST : ℚ)
    (classes : Classes) (b : BIN) : ℚ :=
  let br := classes.foldl
    (fun (acc : ℕ × ℕ) p =>
      p.2.foldl
        (fun (acc : ℕ × ℕ) row =>
          if b.selects row then
            if p.1 = best then (acc.1 + 1, acc.2) else (acc.1, acc.2 + 1)
          else acc)
        acc)
    (0, 0)
  score ((br.1 : ℚ) / (BEST + tiny)) ((br.2 : ℚ) / (REST + tiny))

/-- Python `max(bins, key=key)`: the first maximal element (`ValueError`
on an empty list, hence `Option`). -/
def pymaxBy (key : BIN → ℚ) : List BIN → Option BIN
  | [] => none
  | b :: rest => some (rest.foldl (fun cur x => if key cur < key x then x else cur) b)

/-- `grow(classes, lvl, above)` of `tree`, with a fuel argument (an
embedding artifact standing for Python's recursion limit; every theorem
evaluates it with ample fuel). -/
noncomputable def grow (cfg : Config) (score : ℚ → ℚ → ℚ) (best : String)
    (BINS : List BIN) (BEST REST : ℚ) :
    ℕ → Classes → ℕ → ℕ → Except PyErr TreeNode
  | 0, _, _, _ => .error .recursionError
  | fuel + 1, classes, lvl, above =>
    let nBest := (classesGet classes best).length
    if nBest ≤ cfg.leaf ∨ nBest = above then .ok (.leaf classes lvl)
    else
      match pymaxBy (binScore score best BEST REST classes) BINS with
      | none => .error .valueError
      | some bin =>
        match bin.selectsRejects classes with
        | .error e => .error e
        | .ok (yes, no) =>
          match grow cfg score best BINS BEST REST fuel yes (lvl + 1) nBest with
          | .error e => .error e
          | .ok yesT =>
            match grow cfg score best BINS BEST REST fuel no (lvl + 1) nBest with
            | .error e => .error e
            | .ok noT => .ok (.node lvl bin.att bin.txt bin.lo bin.hi yesT noT)

/-- `tree(data, classes, best, rest, score)`: precompute `BINS` over all
independent columns once, then grow from the root — which the source calls
with `above = len(classes[best])`. -/
noncomputable def tree (cfg : Config) (score : ℚ → ℚ → ℚ) (data : DATA)
    (classes : Classes) (best rest : String) : Except PyErr TreeNode :=
  let BEST := ((classesGet classes best).length : ℚ)
  let REST := ((classesGet classes rest).length : ℚ)
  let BINS := data.xcols.flatMap (fun col => Col.bins cfg col classes)
  grow cfg score best BINS BEST REST ((classesGet classes best).length + 1)
    classes 0 (classesGet classes best).length

/-- The number of loop iterations `smo` actually executes (an observer of
`smoLoop`, used to state the budget bound). -/
noncomputable def smoIters (cfg : Config) (score : ℝ → ℝ → ℝ) (data0 : DATA) :
    ℕ → SmoState → ℕ
  | 0, _ => 0
  | fuel + 1, s =>
    if s.todo.length < 3 then 0
    else smoIters cfg score data0 fuel (smoStep cfg score data0 s) + 1

/-- The spanning bin built inside `BIN.merge`. -/
def BIN.span (i j : BIN) : BIN :=
  { att := i.att, txt := i.txt, lo := pymin i.lo j.lo, hi := pymax i.hi j.hi,
    ys := cadd i.ys j.ys }

/-! ### Bridge lemmas -/

theorem rleB_iff (a b : ℝ) : rleB a b = true ↔ a ≤ b := by
  simp [rleB]

theorem rltB_iff (a b : ℝ) : rltB a b = true ↔ a < b := by
  simp [rltB]

theorem d2hSq_nonneg (d : DATA) (row : Row) : 0 ≤ d.d2hSq row := by
  unfold DATA.d2hSq
  apply div_nonneg
  · apply List.sum_nonneg
    intro q hq
    simp only [List.mem_map] at hq
    obtain ⟨c, -, rfl⟩ := hq
    positivity
  · positivity

theorem d2hLe_iff (d : DATA) (a b : Row) : d2hLe d a b = true ↔ d.d2h a ≤ d.d2h b := by
  unfold d2hLe DATA.d2h
  rw [decide_eq_true_eq,
    Real.sqrt_le_sqrt_iff (by exact_mod_cast d2hSq_nonneg d b)]
  exact ⟨fun h => by exact_mod_cast h, fun h => by exact_mod_cast h⟩

/-! ### C3: `Bin.selectsRejects` -/

/-- A simple concrete bin used by several evaluations. -/
def binA : BIN := { att := 0, txt := "A", lo := Cell.num 1, hi := Cell.num 3, ys := [] }

/-- C3: the claim says `Bin.selectsRejects` partitions a class mapping into
the selected and rejected rows with class labels preserved.  In fact the
source executes `what.add(row)` where `what` is a plain dict, so the very
first row processed raises `AttributeError`: on the one-row class mapping
`{"best": [[1]]}` the call fails instead of returning a partition. -/
theorem C3_selectsRejects_raises :
    binA.selectsRejects [("best", [[Cell.num 1]])] = .error .attributeError ∧
    binA.selects [Cell.num 1] = true := by
  exact ⟨rfl, rfl⟩

/-! ### C7: `div()` -/

/-- A `SYM` summary holding a single value `"a"`. -/
def symA : SYM := { n := 1, att := 0, txt := "s", has := [(Cell.str "a", 1)] }

/-- A `NUM` summary with `n = 3` and `m2 = 8`. -/
def numC : NUM :=
  { n := 3, att := 0, txt := "C", mu := 0, m2 := 8, lo := 0, hi := 0, heaven := 1 }

/-- A `NUM` summary with `n = 1` (fewer than two values). -/
def numSmall : NUM :=
  { n := 1, att := 0, txt := "C", mu := 5, m2 := 0, lo := 5, hi := 5, heaven := 1 }

/-- C7: the claim says `div()` returns a single number, for a `SYM` the
Shannon entropy of its frequency table.  The `NUM` half behaves as claimed
(`sqrt(m2/(n-1))`, and `0` when `n < 2`), but `SYM.div` returns
`entropy(i.has)` verbatim — the PAIR `(entropy, count)` — because `entropy`
returns a 2-tuple that `div` never projects; its own `-> float` annotation
notwithstanding. -/
theorem C7_div_evaluations :
    SYM.div symA = ((0 : ℝ), (1 : ℕ)) ∧ NUM.div numC = 2 ∧ NUM.div numSmall = 0 := by
  refine ⟨?_, ?_, ?_⟩
  · unfold SYM.div entropy symA
    simp
  · unfold NUM.div numC
    norm_num
    rw [show (4 : ℝ) = 2 ^ 2 by norm_num]
    exact Real.sqrt_sq (by norm_num)
  · unfold NUM.div numSmall
    norm_num

/-! ### C5: `Bin.merge` -/

/-- C5: for two bins on the same column, `merge` returns the spanning bin
exactly when either bin's total count is below `small` or the merged bin's
entropy does not exceed the count-weighted average of the two original
entropies; otherwise it returns `None` — which the merge scan `merges`
treats as a no-op, keeping the left bin and moving on. -/
theorem C5_merge_spec (i j : BIN) (small : ℚ) (hat : i.att = j.att) :
    (BIN.merge i j small = some (BIN.span i j) ↔
      (((entropy i.ys).2 : ℚ) < small ∨ ((entropy j.ys).2 : ℚ) < small) ∨
        (entropy (cadd i.ys j.ys)).1 ≤
          (((entropy i.ys).2 : ℝ) * (entropy i.ys).1 +
              ((entropy j.ys).2 : ℝ) * (entropy j.ys).1) /
            ((entropy (cadd i.ys j.ys)).2 : ℝ)) ∧
    (BIN.merge i j small = none ↔
      ¬ ((((entropy i.ys).2 : ℚ) < small ∨ ((entropy j.ys).2 : ℚ) < small) ∨
        (entropy (cadd i.ys j.ys)).1 ≤
          (((entropy i.ys).2 : ℝ) * (entropy i.ys).1 +
              ((entropy j.ys).2 : ℝ) * (entropy j.ys).1) /
            ((entropy (cadd i.ys j.ys)).2 : ℝ))) ∧
    (∀ (m : BIN → BIN → Option BIN) (a b : BIN) (rest : List BIN),
      m a b = none → mergesScan m (a :: b :: rest) = a :: mergesScan m (b :: rest)) := by
  have hspan : BIN.merge i j small =
      if ((entropy i.ys).2 : ℚ) < small ∨ ((entropy j.ys).2 : ℚ) < small then
        some (BIN.span i j)
      else if rleB (entropy (cadd i.ys j.ys)).1
          ((((entropy i.ys).2 : ℝ) * (entropy i.ys).1 +
              ((entropy j.ys).2 : ℝ) * (entropy j.ys).1) /
            ((entropy (cadd i.ys j.ys)).2 : ℝ)) then
        some (BIN.span i j)
      else none := by
    unfold BIN.merge BIN.span
    rw [if_pos hat]
  refine ⟨?_, ?_, ?_⟩
  · rw [hspan]
    by_cases h1 : ((entropy i.ys).2 : ℚ) < small ∨ ((entropy j.ys).2 : ℚ) < small
    · rw [if_pos h1]
      exact iff_of_true rfl (Or.inl h1)
    · rw [if_neg h1]
      by_cases h2 : rleB (entropy (cadd i.ys j.ys)).1
          ((((entropy i.ys).2 : ℝ) * (entropy i.ys).1 +
              ((entropy j.ys).2 : ℝ) * (entropy j.ys).1) /
            ((entropy (cadd i.ys j.ys)).2 : ℝ)) = true
      · rw [if_pos h2]
        exact iff_of_true rfl (Or.inr ((rleB_iff _ _).mp h2))
      · rw [if_neg (by simpa using h2)]
        simp only [Bool.not_eq_true] at h2
        refine iff_of_false (by simp) ?_
        intro hc
        rcases hc with hc | hc
        · exact h1 hc
        · exact absurd ((rleB_iff _ _).mpr hc) (by simp [h2])
  · rw [hspan]
    by_cases h1 : ((entropy i.ys).2 : ℚ) < small ∨ ((entropy j.ys).2 : ℚ) < small
    · rw [if_pos h1]
      exact iff_of_false (by simp) (fun hn => hn (Or.inl h1))
    · rw [if_neg h1]
      by_cases h2 : rleB (entropy (cadd i.ys j.ys)).1
          ((((entropy i.ys).2 : ℝ) * (entropy i.ys).1 +
              ((entropy j.ys).2 : ℝ) * (entropy j.ys).1) /
            ((entropy (cadd i.ys j.ys)).2 : ℝ)) = true
      · rw [if_pos h2]
        exact iff_of_false (by simp) (fun hn => hn (Or.inr ((rleB_iff _ _).mp h2)))
      · rw [if_neg (by simpa using h2)]
        simp only [Bool.not_eq_true] at h2
        refine iff_of_true rfl ?_
        intro hc
        rcases hc with hc | hc
        · exact h1 hc
        · exact absurd ((rleB_iff _ _).mpr hc) (by simp [h2])
  · intro m a b rest hm
    simp [mergesScan, hm]

/-- Witness for C5 at two concrete one-value bins on column 0: both counts
are `1 < small = 5`, so the merge fires and returns the spanning bin. -/
theorem C5_merge_spec_witness :
    binA.att = binA.att ∧
    (BIN.merge binA binA 5 = some (BIN.span binA binA) ↔
      (((entropy binA.ys).2 : ℚ) < 5 ∨ ((entropy binA.ys).2 : ℚ) < 5) ∨
        (entropy (cadd binA.ys binA.ys)).1 ≤
          (((entropy binA.ys).2 : ℝ) * (entropy binA.ys).1 +
              ((entropy binA.ys).2 : ℝ) * (entropy binA.ys).1) /
            ((entropy (cadd binA.ys binA.ys)).2 : ℝ)) :=
  ⟨rfl, (C5_merge_spec binA binA 5 rfl).1⟩

/-! ### C1: the tree builder -/

/-- A dataset over the single independent numeric column `"A"`. -/
def dataC1 : DATA :=
  (DATA.mk0 ["A"]).adds [[Cell.num 1], [Cell.num 2], [Cell.num 3], [Cell.num 4]]

/-- A two-class partition whose best class holds three rows — strictly more
than the default leaf threshold `the.leaf = 2`. -/
def classesC1 : Classes :=
  [("best", [[Cell.num 1], [Cell.num 2], [Cell.num 3]]), ("rest", [[Cell.num 4]])]

/-- C1: the claim says a node whose best sub-count exceeds the leaf
threshold (and differs from its parent's) selects the best bin, splits via
`selectsRejects` and recurses.  But `tree` invokes `grow` with
`above = len(classes[best])`, so at the root `nBest == above` always holds
and the builder returns a single leaf with the original partition at depth
0 even though `nBest = 3 > the.leaf = 2` — the split branch is unreachable
(and `selectsRejects` would raise `AttributeError` if it were reached). -/
theorem C1_tree_root_is_always_leaf :
    tree the (fun B R => B - R) dataC1 classesC1 "best" "rest" =
      .ok (.leaf classesC1 0) ∧
    the.leaf < (classesGet classesC1 "best").length :=
  ⟨rfl, by decide⟩

/-! ### C6: `DATA.loglike` -/

theorem loglike_likes_sum (cfg : Config) (row : Row) (p : ℚ) : ∀ cols : List Col,
    ((((cols.filter (fun c => !(row.getD c.att Cell.missing == Cell.missing))).map
        (fun c => Col.like cfg c (row.getD c.att Cell.missing) p)).filter
        (fun v => rltB 0 v)).map Real.log).sum =
      (cols.map (fun c =>
        if row.getD c.att Cell.missing ≠ Cell.missing ∧
            0 < Col.like cfg c (row.getD c.att Cell.missing) p then
          Real.log (Col.like cfg c (row.getD c.att Cell.missing) p)
        else 0)).sum
  | [] => by simp
  | c :: cols => by
    have ih := loglike_likes_sum cfg row p cols
    by_cases hm : row.getD c.att Cell.missing = Cell.missing
    · have hbe : (row.getD c.att Cell.missing == Cell.missing) = true := beq_iff_eq.mpr hm
      have h1 : (!(row.getD c.att Cell.missing == Cell.missing)) = false := by
        rw [hbe]
        rfl
      rw [List.filter_cons, h1, if_neg (by simp), ih, List.map_cons, List.sum_cons,
        if_neg (fun hc => hc.1 hm), zero_add]
    · have hbe : (row.getD c.att Cell.missing == Cell.missing) = false :=
        beq_eq_false_iff_ne.mpr hm
      have h1 : (!(row.getD c.att Cell.missing == Cell.missing)) = true := by
        rw [hbe]
        rfl
      rw [List.filter_cons, h1, if_pos rfl, List.map_cons, List.filter_cons]
      by_cases hp2 : (0 : ℝ) < Col.like cfg c (row.getD c.att Cell.missing) p
      · have h2 : rltB 0 (Col.like cfg c (row.getD c.att Cell.missing) p) = true :=
          (rltB_iff _ _).mpr hp2
        rw [h2, if_pos rfl, List.map_cons, List.sum_cons, ih, List.map_cons,
          List.sum_cons, if_pos ⟨hm, hp2⟩]
      · have h2 : rltB 0 (Col.like cfg c (row.getD c.att Cell.missing) p) = false := by
          simpa using fun hc => hp2 ((rltB_iff _ _).mp hc)
        rw [h2, if_neg (by simp), ih, List.map_cons, List.sum_cons,
          if_neg (fun hc => hp2 hc.2), zero_add]

/-- C6: `loglike(row, nall, nh)` equals the sum, over the independent
columns whose value in the row is not missing, of the natural log of the
column's likelihood of that value — any non-positive likelihood term being
excluded — plus the natural log of the prior
`(|rows| + k)/(nall + k·nh)` (itself excluded when non-positive, which the
source treats as just another term of the same sum). -/
theorem C6_loglike_spec (cfg : Config) (d : DATA) (row : Row) (nall nh : ℕ) :
    d.loglike cfg row nall nh =
      (d.xcols.map (fun c =>
        if row.getD c.att Cell.missing ≠ Cell.missing ∧
            0 < Col.like cfg c (row.getD c.att Cell.missing)
              (((d.rows.length : ℚ) + cfg.k) / ((nall : ℚ) + cfg.k * (nh : ℚ))) then
          Real.log (Col.like cfg c (row.getD c.att Cell.missing)
            (((d.rows.length : ℚ) + cfg.k) / ((nall : ℚ) + cfg.k * (nh : ℚ))))
        else 0)).sum +
      (if 0 < ((d.rows.length : ℚ) + cfg.k) / ((nall : ℚ) + cfg.k * (nh : ℚ)) then
        Real.log ((((d.rows.length : ℚ) + cfg.k) / ((nall : ℚ) + cfg.k * (nh : ℚ)) : ℚ) : ℝ)
      else 0) := by
  set p : ℚ := ((d.rows.length : ℚ) + cfg.k) / ((nall : ℚ) + cfg.k * (nh : ℚ)) with hp
  show (let prior : ℚ := ((d.rows.length : ℚ) + cfg.k) / ((nall : ℚ) + cfg.k * (nh : ℚ))
    let likes : List ℝ :=
      ((d.xcols.filter (fun c => !(row.getD c.att Cell.missing == Cell.missing))).map
        (fun c => Col.like cfg c (row.getD c.att Cell.missing) prior))
    (((likes ++ [((prior : ℚ) : ℝ)]).filter (fun v => rltB 0 v)).map Real.log).sum) = _
  simp only [← hp]
  rw [List.filter_append, List.map_append, List.sum_append]
  rw [loglike_likes_sum cfg row p d.xcols]
  congr 1
  by_cases hpos : (0 : ℚ) < p
  · have : rltB 0 ((p : ℚ) : ℝ) = true := (rltB_iff _ _).mpr (by exact_mod_cast hpos)
    simp [this, hpos]
  · have hR : ¬ (0 : ℝ) < ((p : ℚ) : ℝ) := fun hc => hpos (by exact_mod_cast hc)
    have hb : rltB 0 ((p : ℚ) : ℝ) = false := by
      simpa using fun hc => hR ((rltB_iff _ _).mp hc)
    simp [hb, hpos]

/-! ### C8: `DATA.order` -/

theorem d2hLe_trans (d : DATA) : ∀ a b c : Row,
    d2hLe d a b → d2hLe d b c → d2hLe d a c := by
  intro a b c hab hbc
  unfold d2hLe at *
  rw [decide_eq_true_eq] at *
  exact le_trans hab hbc

theorem d2hLe_total (d : DATA) : ∀ a b : Row, d2hLe d a b || d2hLe d b a := by
  intro a b
  unfold d2hLe
  rcases le_total (d.d2hSq a) (d.d2hSq b) with h | h
  · simp [h]
  · simp [h]

/-- C8: `order()` totally reorders the rows (a permutation of the row
list), sorted ascending by the real-valued `d2h`; ties keep their prior
relative order (stability, stated via pair sublists); the column summaries
are untouched; and applying `order()` twice equals applying it once. -/
theorem C8_order_spec (d : DATA) :
    (d.order).rows.Pairwise (fun a b => d.d2h a ≤ d.d2h b) ∧
    (d.order).rows.Perm d.rows ∧
    (d.order).cols = d.cols ∧
    (∀ a b : Row, d.d2h a = d.d2h b → [a, b].Sublist d.rows →
      [a, b].Sublist (d.order).rows) ∧
    (d.order).order = d.order := by
  have hsorted : ((d.order).rows).Pairwise (fun a b => d2hLe d a b = true) :=
    @List.sorted_mergeSort _ (d2hLe d) (d2hLe_trans d) (d2hLe_total d) d.rows
  refine ⟨?_, ?_, rfl, ?_, ?_⟩
  · exact hsorted.imp (fun h => (d2hLe_iff _ _ _).mp h)
  · exact List.mergeSort_perm d.rows (d2hLe d)
  · intro a b hd2h hsub
    exact List.pair_sublist_mergeSort (d2hLe_trans d) (d2hLe_total d)
      ((d2hLe_iff _ _ _).mpr (le_of_eq hd2h)) hsub
  · have hsorted' : List.Pairwise (fun a b => d2hLe d a b = true)
        (d.rows.mergeSort (d2hLe d)) := hsorted
    show DATA.order (DATA.order d) = DATA.order d
    unfold DATA.order
    show ({ rows := (d.rows.mergeSort (d2hLe d)).mergeSort (d2hLe d)
            cols := d.cols } : DATA) =
      { rows := d.rows.mergeSort (d2hLe d), cols := d.cols }
    rw [List.mergeSort_of_sorted hsorted']

/-! ### C9: malformed rows -/

theorem col_add_err_iff (col : Col) (x : Cell) :
    (col.add x).2 = true ↔ col.isNum = true ∧ ∃ s, x = Cell.str s := by
  cases col with
  | num c =>
    cases x with
    | num q => simp [Col.add, NUM.add, Col.isNum]
    | str s => simp [Col.add, NUM.add, Col.isNum]
    | missing => simp [Col.add, NUM.add, Col.isNum]
  | sym c =>
    cases x with
    | num q => simp [Col.add, SYM.add, Col.isNum]
    | str s => simp [Col.add, SYM.add, Col.isNum]
    | missing => simp [Col.add, SYM.add, Col.isNum]

theorem colsAddGo_err_iff (row : Row) : ∀ cols : List Col,
    ((colsAddGo cols row).2 = true ↔
      ∃ col ∈ cols, row.length ≤ col.att ∨
        (col.isNum = true ∧ ∃ s, row.getD col.att Cell.missing = Cell.str s))
  | [] => by simp [colsAddGo]
  | col :: cols => by
    by_cases h : col.att < row.length
    · have hget : row.getD col.att Cell.missing = row[col.att] :=
        List.getD_eq_getElem row Cell.missing h
      by_cases herr : (col.add row[col.att]).2 = true
      · have hE : (colsAddGo (col :: cols) row).2 = true := by
          simp [colsAddGo, dif_pos h, herr]
        rw [hE]
        simp only [true_iff]
        refine ⟨col, List.mem_cons_self col cols, Or.inr ?_⟩
        rw [hget]
        exact (col_add_err_iff _ _).mp herr
      · have hstep : (colsAddGo (col :: cols) row).2 = (colsAddGo cols row).2 := by
          simp [colsAddGo, dif_pos h, herr]
        rw [hstep, colsAddGo_err_iff row cols]
        constructor
        · rintro ⟨c, hc, hp⟩
          exact ⟨c, List.mem_cons_of_mem col hc, hp⟩
        · rintro ⟨c, hc, hp⟩
          rcases List.mem_cons.mp hc with rfl | hc
          · rcases hp with hp | hp
            · exact absurd hp (by omega)
            · rw [hget] at hp
              exact absurd ((col_add_err_iff _ _).mpr hp) herr
          · exact ⟨c, hc, hp⟩
    · have hE : (colsAddGo (col :: cols) row).2 = true := by
        simp [colsAddGo, dif_neg h]
      rw [hE]
      simp only [true_iff]
      exact ⟨col, List.mem_cons_self col cols, Or.inl (by omega)⟩

/-- C9 (amended form): adding a row errs exactly when the row is shorter
than the header (some column index falls outside it) or a numeric column
meets a non-numeric, non-missing value; on an error the row is NOT appended
(it fails at the point the row is added), and on success it is appended —
but, as `C9_counterexample` shows, the columns processed before the failing
one have already been mutated, so accumulation is not all-or-nothing, and a
row longer than the header is accepted. -/
theorem C9_add_error_spec (d : DATA) (row : Row)
    (hAtt : ∀ k (h : k < d.cols.all.length), (d.cols.all.get ⟨k, h⟩).att = k) :
    ((d.add row).2 = true ↔
      row.length < d.cols.all.length ∨
        ∃ col ∈ d.cols.all, col.isNum = true ∧
          ∃ s, row.getD col.att Cell.missing = Cell.str s) ∧
    ((d.add row).2 = true → (d.add row).1.rows = d.rows) ∧
    ((d.add row).2 = false → (d.add row).1.rows = d.rows ++ [row]) := by
  have hiff := colsAddGo_err_iff row d.cols.all
  have hshape : (∃ col ∈ d.cols.all, row.length ≤ col.att ∨
      (col.isNum = true ∧ ∃ s, row.getD col.att Cell.missing = Cell.str s)) ↔
      (row.length < d.cols.all.length ∨ ∃ col ∈ d.cols.all, col.isNum = true ∧
        ∃ s, row.getD col.att Cell.missing = Cell.str s) := by
    constructor
    · rintro ⟨c, hc, hp | hp⟩
      · left
        obtain ⟨⟨k, hk⟩, rfl⟩ := List.get_of_mem hc
        rw [hAtt k hk] at hp
        omega
      · exact Or.inr ⟨c, hc, hp⟩
    · rintro (hshort | ⟨c, hc, hp⟩)
      · refine ⟨d.cols.all.get ⟨row.length, hshort⟩, List.get_mem _ _ _, Or.inl ?_⟩
        exact le_of_eq (hAtt row.length hshort).symm
      · exact ⟨c, hc, Or.inr hp⟩
  by_cases hE : (colsAddGo d.cols.all row).2 = true
  · have h2 : (d.add row).2 = true := by simp [DATA.add, COLS.add, hE]
    have h1 : (d.add row).1.rows = d.rows := by simp [DATA.add, COLS.add, hE]
    refine ⟨?_, fun _ => h1, fun hc => absurd (h2.symm.trans hc) (by simp)⟩
    rw [h2]
    exact iff_of_true rfl (hshape.mp (hiff.mp hE))
  · have hEf : (colsAddGo d.cols.all row).2 = false := by simpa using hE
    have h2 : (d.add row).2 = false := by simp [DATA.add, COLS.add, hEf]
    have h1 : (d.add row).1.rows = d.rows ++ [row] := by simp [DATA.add, COLS.add, hEf]
    refine ⟨?_, fun hc => absurd (h2.symm.trans hc) (by simp), fun _ => h1⟩
    rw [h2]
    exact iff_of_false (by simp) (fun hc => hE (hiff.mpr (hshape.mpr hc)))

/-- The two-column dataset (`NUM` column `"Apple"`, `SYM` column
`"berry"`) used to exhibit the C9 counterexample. -/
def dC9 : DATA := DATA.mk0 ["Apple", "berry"]

/-- C9 counterexample: the claim says a row whose length disagrees with the
header fails with no partial mutation of any column summary.  In fact (i)
the short row `[5]` fails, is rejected, and has nonetheless already mutated
the first column's summary (its count went from 0 to 1), and (ii) the
too-long row `[5, "x", 7]` does not fail at all. -/
theorem C9_counterexample :
    (dC9.add [Cell.num 5]).2 = true ∧
    (dC9.add [Cell.num 5]).1.rows = [] ∧
    (dC9.add [Cell.num 5]).1.cols.all.get? 0 ≠ dC9.cols.all.get? 0 ∧
    (dC9.add [Cell.num 5, Cell.str "x", Cell.num 7]).2 = false := by
  refine ⟨rfl, rfl, ?_, rfl⟩
  decide

/-- Witness for `C9_add_error_spec` on the concrete dataset `dC9` and the
short row `[5]`: the index hypothesis holds and the amended description
applies. -/
theorem C9_add_error_spec_witness :
    (∀ k (h : k < dC9.cols.all.length), (dC9.cols.all.get ⟨k, h⟩).att = k) ∧
    ((dC9.add [Cell.num 5]).2 = true ↔
      ([Cell.num 5] : Row).length < dC9.cols.all.length ∨
        ∃ col ∈ dC9.cols.all, col.isNum = true ∧
          ∃ s, ([Cell.num 5] : Row).getD col.att Cell.missing = Cell.str s) :=
  ⟨by decide, (C9_add_error_spec dC9 [Cell.num 5] (by decide)).1⟩

/-! ### C10: the frame effect of `smo` on its input dataset -/

/-- A two-row dataset used to exhibit that `smo` can leave the rows in a
different order than it found them. -/
def dC10 : DATA := (DATA.mk0 ["A"]).adds [[Cell.num 1], [Cell.num 2]]

/-- C10: `smo` permutes the dataset's own row list in place (the initial
random shuffle, here an arbitrary permutation `shuffled`): afterwards the
dataset holds the same multiset of rows — in general in a different order,
as the concrete instance shows — while its column summaries are unchanged. -/
theorem C10_smo_frame (cfg : Config) (data0 : DATA) (shuffled : List Row)
    (score : ℝ → ℝ → ℝ) (hperm : shuffled.Perm data0.rows) :
    (smo cfg data0 shuffled score).2.rows.Perm data0.rows ∧
    (smo cfg data0 shuffled score).2.cols = data0.cols ∧
    (smo cfg data0 shuffled score).2.rows = shuffled ∧
    (([[Cell.num 2], [Cell.num 1]] : List Row).Perm dC10.rows ∧
      (smo the dC10 [[Cell.num 2], [Cell.num 1]] score).2.rows ≠ dC10.rows) := by
  refine ⟨hperm, rfl, rfl, by decide, ?_⟩
  show ([[Cell.num 2], [Cell.num 1]] : List Row) ≠ dC10.rows
  decide

/-- Witness for `C10_smo_frame`: a concrete two-row dataset and a concrete
transposing shuffle. -/
theorem C10_smo_frame_witness :
    (([[Cell.num 2], [Cell.num 1]] : List Row).Perm dC10.rows) ∧
    (smo the dC10 [[Cell.num 2], [Cell.num 1]] (fun B R => B - R)).2.rows.Perm dC10.rows :=
  ⟨by decide,
    (C10_smo_frame the dC10 [[Cell.num 2], [Cell.num 1]] (fun B R => B - R) (by decide)).1⟩

/-! ### C2: the `smo` loop -/

/-- The structural shape of a column list: index and kind of each column
(the only data the error behaviour of `COLS.add` depends on). -/
def shapeOf (cols : List Col) : List (ℕ × Bool) := cols.map (fun c => (c.att, c.isNum))

theorem col_add_att (col : Col) (x : Cell) :
    ((col.add x).1).att = col.att ∧ ((col.add x).1).isNum = col.isNum := by
  cases col with
  | num c => cases x <;> simp [Col.add, NUM.add, NUM.addQ, Col.att, Col.isNum]
  | sym c => cases x <;> simp [Col.add, SYM.add, Col.att, Col.isNum]

theorem colsAddGo_fst_shape (row : Row) : ∀ cols : List Col,
    shapeOf (colsAddGo cols row).1 = shapeOf cols
  | [] => rfl
  | col :: cols => by
    by_cases h : col.att < row.length
    · by_cases herr : (col.add row[col.att]).2 = true
      · simp only [colsAddGo, dif_pos h, List.get_eq_getElem]
        rw [if_pos herr]
        simp [shapeOf, (col_add_att col _).1, (col_add_att col _).2]
      · simp only [colsAddGo, dif_pos h, List.get_eq_getElem]
        rw [if_neg herr]
        have ih := colsAddGo_fst_shape row cols
        simp only [shapeOf, List.map_cons] at ih ⊢
        rw [(col_add_att col _).1, (col_add_att col _).2, ih]
    · simp [colsAddGo, dif_neg h]

theorem colsAddGo_err_shape (row : Row) (cols₁ cols₂ : List Col)
    (hs : shapeOf cols₁ = shapeOf cols₂) :
    (colsAddGo cols₁ row).2 = (colsAddGo cols₂ row).2 := by
  have key : ∀ cols : List Col,
      ((colsAddGo cols row).2 = true ↔
        ∃ p ∈ shapeOf cols, row.length ≤ p.1 ∨
          (p.2 = true ∧ ∃ s, row.getD p.1 Cell.missing = Cell.str s)) := by
    intro cols
    rw [colsAddGo_err_iff row cols]
    constructor
    · rintro ⟨c, hc, hp⟩
      exact ⟨(c.att, c.isNum), List.mem_map.mpr ⟨c, hc, rfl⟩, hp⟩
    · rintro ⟨p, hp, hcond⟩
      obtain ⟨c, hc, rfl⟩ := List.mem_map.mp hp
      exact ⟨c, hc, hcond⟩
  have h1 := key cols₁
  have h2 := key cols₂
  rw [hs] at h1
  cases hb1 : (colsAddGo cols₁ row).2 <;> cases hb2 : (colsAddGo cols₂ row).2
  · rfl
  · exact absurd (h1.mpr (h2.mp hb2)) (by simp [hb1])
  · exact absurd (h2.mpr (h1.mp hb1)) (by simp [hb2])
  · rfl

theorem data_add_cols (d : DATA) (row : Row) :
    (d.add row).1.cols.all = (colsAddGo d.cols.all row).1 ∧
    (d.add row).1.cols.names = d.cols.names := by
  unfold DATA.add COLS.add
  by_cases h : (colsAddGo d.cols.all row).2 = true
  · simp [h]
  · simp [h]

theorem adds_spec : ∀ (lst : List Row) (d : DATA),
    (∀ r ∈ lst, (colsAddGo d.cols.all r).2 = false) →
    (d.adds lst).rows = d.rows ++ lst ∧
    shapeOf (d.adds lst).cols.all = shapeOf d.cols.all ∧
    (d.adds lst).cols.names = d.cols.names
  | [], d => by
    intro _
    simp [DATA.adds]
  | r :: lst, d => by
    intro h
    have hr : (colsAddGo d.cols.all r).2 = false := h r (List.mem_cons_self r lst)
    have hrows : (d.add r).1.rows = d.rows ++ [r] := by
      unfold DATA.add COLS.add
      simp [hr]
    have hshape : shapeOf (d.add r).1.cols.all = shapeOf d.cols.all := by
      rw [(data_add_cols d r).1]
      exact colsAddGo_fst_shape r d.cols.all
    have hnames : (d.add r).1.cols.names = d.cols.names := (data_add_cols d r).2
    have hrest : ∀ r' ∈ lst, (colsAddGo (d.add r).1.cols.all r').2 = false := by
      intro r' hr'
      rw [colsAddGo_err_shape r' _ d.cols.all hshape]
      exact h r' (List.mem_cons_of_mem r hr')
    have hstep : d.adds (r :: lst) = ((d.add r).1).adds lst := by
      unfold DATA.adds
      rfl
    obtain ⟨ih1, ih2, ih3⟩ := adds_spec lst (d.add r).1 hrest
    refine ⟨?_, ?_, ?_⟩
    · rw [hstep, ih1, hrows, List.append_assoc]
      rfl
    · rw [hstep, ih2, hshape]
    · rw [hstep, ih3, hnames]

/-- A row that every (fresh or descendant) column set over `names` accepts
without error. -/
def rowAddOk (names : List String) (r : Row) : Prop :=
  (colsAddGo (COLS.init names).all r).2 = false

instance (names : List String) (r : Row) : Decidable (rowAddOk names r) := by
  unfold rowAddOk
  infer_instance

theorem clone_rows_plain (d : DATA) (lst : List Row)
    (h : ∀ r ∈ lst, rowAddOk d.cols.names r) :
    (d.clone lst false).rows = lst := by
  unfold DATA.clone
  simp only [if_neg Bool.false_ne_true]
  have := adds_spec lst (DATA.mk0 d.cols.names) (fun r hr => h r hr)
  simpa [DATA.mk0] using this.1

theorem clone_rows_ordered (d : DATA) (lst : List Row)
    (h : ∀ r ∈ lst, rowAddOk d.cols.names r) :
    (d.clone lst true).rows =
      lst.mergeSort (d2hLe ((DATA.mk0 d.cols.names).adds lst)) := by
  unfold DATA.clone
  simp only [if_pos rfl]
  unfold DATA.order
  have := adds_spec lst (DATA.mk0 d.cols.names) (fun r hr => h r hr)
  have h1 : ((DATA.mk0 d.cols.names).adds lst).rows = lst := by
    simpa [DATA.mk0] using this.1
  rw [h1]
  simp

theorem d2hLe_order (d : DATA) : d2hLe d.order = d2hLe d := rfl

theorem d2h_order (d : DATA) : DATA.d2h d.order = DATA.d2h d := rfl

/-- The initial loop state of `smo`. -/
noncomputable def smoState0 (cfg : Config) (data0 : DATA) (shuffled : List Row) :
    SmoState :=
  { done := shuffled.take cfg.budget0
    todo := shuffled.drop cfg.budget0
    data1 := (({ data0 with rows := shuffled } : DATA)).clone (shuffled.take cfg.budget0) true }

/-- The loop state of `smo` after the loop has run. -/
noncomputable def smoFinal (cfg : Config) (data0 : DATA) (shuffled : List Row)
    (score : ℝ → ℝ → ℝ) : SmoState :=
  smoLoop cfg score { data0 with rows := shuffled } cfg.Budget
    (smoState0 cfg data0 shuffled)

theorem smo_eq (cfg : Config) (data0 : DATA) (shuffled : List Row)
    (score : ℝ → ℝ → ℝ) :
    smo cfg data0 shuffled score =
      ((smoFinal cfg data0 shuffled score).data1.rows.headD [],
        { data0 with rows := shuffled }) := rfl

theorem clone_true_eq (d : DATA) (lst : List Row) :
    d.clone lst true = ((DATA.mk0 d.cols.names).adds lst).order := by
  unfold DATA.clone
  simp

theorem smoIters_le (cfg : Config) (score : ℝ → ℝ → ℝ) (data0 : DATA) :
    ∀ (fuel : ℕ) (s : SmoState), smoIters cfg score data0 fuel s ≤ fuel
  | 0, _ => le_refl _
  | fuel + 1, s => by
    unfold smoIters
    by_cases ht : s.todo.length < 3
    · rw [if_pos ht]
      exact Nat.zero_le _
    · rw [if_neg ht]
      exact Nat.succ_le_succ (smoIters_le cfg score data0 fuel _)

theorem smoLoop_iterate (cfg : Config) (score : ℝ → ℝ → ℝ) (data0 : DATA) :
    ∀ (fuel : ℕ) (s : SmoState),
      smoLoop cfg score data0 fuel s =
        (smoStep cfg score data0)^[smoIters cfg score data0 fuel s] s
  | 0, s => rfl
  | fuel + 1, s => by
    unfold smoLoop smoIters
    by_cases ht : s.todo.length < 3
    · rw [if_pos ht, if_pos ht]
      rfl
    · rw [if_neg ht, if_neg ht, Function.iterate_succ_apply]
      exact smoLoop_iterate cfg score data0 fuel _

theorem smoLoop_early (cfg : Config) (score : ℝ → ℝ → ℝ) (data0 : DATA) :
    ∀ (fuel : ℕ) (s : SmoState), s.todo.length < 3 →
      smoLoop cfg score data0 fuel s = s
  | 0, _, _ => rfl
  | fuel + 1, s, ht => by
    unfold smoLoop
    rw [if_pos ht]

/-- The loop-state invariant of `smo`: `done` is nonempty, every row in
`done` and `todo` is header-compatible, and `data1` holds exactly the rows
of `done`, ranked (sorted ascending by its own `d2h`). -/
def SmoInv (names : List String) (s : SmoState) : Prop :=
  s.done ≠ [] ∧
  (∀ r ∈ s.done, rowAddOk names r) ∧
  (∀ r ∈ s.todo, rowAddOk names r) ∧
  s.data1.rows.Perm s.done ∧
  s.data1.rows.Pairwise (fun a b => d2hLe s.data1 a b = true)

theorem clone_inv (data0 : DATA) (lst : List Row)
    (h : ∀ r ∈ lst, rowAddOk data0.cols.names r) :
    (data0.clone lst true).rows.Perm lst ∧
    (data0.clone lst true).rows.Pairwise
      (fun a b => d2hLe (data0.clone lst true) a b = true) := by
  rw [clone_true_eq]
  rw [d2hLe_order]
  constructor
  · show (((DATA.mk0 data0.cols.names).adds lst).order).rows.Perm lst
    unfold DATA.order
    have h1 : ((DATA.mk0 data0.cols.names).adds lst).rows = lst := by
      simpa [DATA.mk0] using (adds_spec lst (DATA.mk0 data0.cols.names) h).1
    show (((DATA.mk0 data0.cols.names).adds lst).rows.mergeSort _).Perm lst
    rw [h1]
    exact List.mergeSort_perm lst _
  · show (((DATA.mk0 data0.cols.names).adds lst).rows.mergeSort _).Pairwise _
    exact List.sorted_mergeSort
      (d2hLe_trans ((DATA.mk0 data0.cols.names).adds lst))
      (d2hLe_total ((DATA.mk0 data0.cols.names).adds lst)) _

theorem smoStep_inv (cfg : Config) (score : ℝ → ℝ → ℝ) (data0 : DATA)
    (s : SmoState) (hinv : SmoInv data0.cols.names s) :
    SmoInv data0.cols.names (smoStep cfg score data0 s) := by
  obtain ⟨hne, hdone, htodo, hperm, hsort⟩ := hinv
  cases hacq : acquire cfg score (smoBestD cfg data0 s) (smoRestD cfg data0 s) s.todo with
  | nil =>
    have hstep : smoStep cfg score data0 s = s := by
      unfold smoStep
      rw [hacq]
    rw [hstep]
    exact ⟨hne, hdone, htodo, hperm, hsort⟩
  | cons top todo' =>
    have hstep : smoStep cfg score data0 s =
        { done := s.done ++ [top], todo := todo'
          data1 := data0.clone (s.done ++ [top]) true } := by
      unfold smoStep
      rw [hacq]
    have hsubset : ∀ r ∈ top :: todo', r ∈ s.todo := by
      intro r hr
      rw [← hacq] at hr
      simp only [acquire] at hr
      exact List.mem_mergeSort.mp (List.take_subset _ _ hr)
    have htop : top ∈ s.todo := hsubset top (List.mem_cons_self _ _)
    have hdone' : ∀ r ∈ s.done ++ [top], rowAddOk data0.cols.names r := by
      intro r hr
      rcases List.mem_append.mp hr with hr | hr
      · exact hdone r hr
      · rw [List.mem_singleton.mp hr]
        exact htodo top htop
    obtain ⟨hp, hs⟩ := clone_inv data0 (s.done ++ [top]) hdone'
    rw [hstep]
    exact ⟨by simp, hdone',
      fun r hr => htodo r (hsubset r (List.mem_cons_of_mem top hr)), hp, hs⟩

theorem smoLoop_inv (cfg : Config) (score : ℝ → ℝ → ℝ) (data0 : DATA) :
    ∀ (fuel : ℕ) (s : SmoState), SmoInv data0.cols.names s →
      SmoInv data0.cols.names (smoLoop cfg score data0 fuel s)
  | 0, _, h => h
  | fuel + 1, s, h => by
    unfold smoLoop
    by_cases ht : s.todo.length < 3
    · rw [if_pos ht]
      exact h
    · rw [if_neg ht]
      exact smoLoop_inv cfg score data0 fuel _ (smoStep_inv cfg score data0 s h)

theorem smoState0_inv (cfg : Config) (data0 : DATA) (shuffled : List Row)
    (hrows : ∀ r ∈ shuffled, rowAddOk data0.cols.names r)
    (hb0 : 1 ≤ cfg.budget0) (hne : shuffled ≠ []) :
    SmoInv data0.cols.names (smoState0 cfg data0 shuffled) := by
  have hdone : ∀ r ∈ shuffled.take cfg.budget0, rowAddOk data0.cols.names r :=
    fun r hr => hrows r (List.take_subset _ _ hr)
  obtain ⟨hp, hs⟩ :=
    clone_inv ({ data0 with rows := shuffled } : DATA) (shuffled.take cfg.budget0) hdone
  refine ⟨?_, hdone, fun r hr => hrows r (List.drop_subset _ _ hr), hp, hs⟩
  intro hnil
  rcases List.take_eq_nil_iff.mp hnil with h | h
  · omega
  · exact hne h

/-- C2: the `smo` loop executes some number of iterations bounded by the
configured `Budget` (the loop is the iterate of `smoStep`); a state with
fewer than 3 `todo` rows terminates the loop immediately as a normal
result; each iteration clones its `best` sub-model from the prefix of
length `n = int(len(done)**best + .5)` of the ranked `done` rows (held in
`data1.rows`) and its `rest` sub-model from the remaining suffix; the final
`data1.rows` is a ranking of the final `done`; and the returned row is a
row of `done` whose `d2h` is minimal over `done`. -/
theorem C2_smo_spec (cfg : Config) (data0 : DATA) (shuffled : List Row)
    (score : ℝ → ℝ → ℝ)
    (hrows : ∀ r ∈ shuffled, rowAddOk data0.cols.names r)
    (hb0 : 1 ≤ cfg.budget0) (hne : shuffled ≠ []) :
    (∀ (fuel : ℕ) (s : SmoState),
      smoIters cfg score { data0 with rows := shuffled } fuel s ≤ fuel) ∧
    (∀ (fuel : ℕ) (s : SmoState),
      smoLoop cfg score { data0 with rows := shuffled } fuel s =
        (smoStep cfg score { data0 with rows := shuffled })^[
          smoIters cfg score { data0 with rows := shuffled } fuel s] s) ∧
    (∀ (fuel : ℕ) (s : SmoState), s.todo.length < 3 →
      smoLoop cfg score { data0 with rows := shuffled } fuel s = s) ∧
    (∀ s : SmoState, (∀ r ∈ s.data1.rows, rowAddOk data0.cols.names r) →
      (smoBestD cfg { data0 with rows := shuffled } s).rows =
        s.data1.rows.take (smoN cfg s) ∧
      (smoRestD cfg { data0 with rows := shuffled } s).rows =
        s.data1.rows.drop (smoN cfg s)) ∧
    (smoFinal cfg data0 shuffled score).data1.rows.Perm
      (smoFinal cfg data0 shuffled score).done ∧
    (smo cfg data0 shuffled score).1 ∈ (smoFinal cfg data0 shuffled score).done ∧
    (∀ r ∈ (smoFinal cfg data0 shuffled score).done,
      (smoFinal cfg data0 shuffled score).data1.d2h ((smo cfg data0 shuffled score).1) ≤
        (smoFinal cfg data0 shuffled score).data1.d2h r) := by
  have hfin : SmoInv data0.cols.names (smoFinal cfg data0 shuffled score) :=
    smoLoop_inv cfg score _ cfg.Budget _
      (smoState0_inv cfg data0 shuffled hrows hb0 hne)
  obtain ⟨hdne, hdok, htok, hperm, hsort⟩ := hfin
  refine ⟨smoIters_le cfg score _, smoLoop_iterate cfg score _,
    smoLoop_early cfg score _, ?_, hperm, ?_, ?_⟩
  · intro s hok
    constructor
    · exact clone_rows_plain _ _ (fun r hr => hok r (List.take_subset _ _ hr))
    · exact clone_rows_plain _ _ (fun r hr => hok r (List.drop_subset _ _ hr))
  · have hne1 : (smoFinal cfg data0 shuffled score).data1.rows ≠ [] := by
      intro h0
      rw [h0] at hperm
      exact hdne hperm.symm.eq_nil
    rw [smo_eq]
    cases hrw : (smoFinal cfg data0 shuffled score).data1.rows with
    | nil => exact absurd hrw hne1
    | cons r t =>
      show (r :: t : List Row).headD [] ∈ _
      have : r ∈ (smoFinal cfg data0 shuffled score).data1.rows := by
        rw [hrw]
        exact List.mem_cons_self _ _
      exact hperm.mem_iff.mp this
  · intro q hq
    rw [smo_eq]
    have hq' : q ∈ (smoFinal cfg data0 shuffled score).data1.rows :=
      hperm.symm.mem_iff.mp hq
    cases hrw : (smoFinal cfg data0 shuffled score).data1.rows with
    | nil =>
      rw [hrw] at hq'
      exact absurd hq' (List.not_mem_nil q)
    | cons r t =>
      show (smoFinal cfg data0 shuffled score).data1.d2h ((r :: t : List Row).headD []) ≤ _
      rw [hrw] at hq' hsort
      rcases List.mem_cons.mp hq' with rfl | hq'
      · exact le_refl _
      · exact (d2hLe_iff _ _ _).mp (List.rel_of_pairwise_cons hsort hq')

/-- Witness for `C2_smo_spec` on the concrete two-row dataset `dC10` with
the default configuration and the transposing shuffle: the hypotheses hold
and (instancing the early-exit conjunct) a loop state with an empty `todo`
is returned unchanged. -/
theorem C2_smo_spec_witness :
    ((∀ r ∈ ([[Cell.num 2], [Cell.num 1]] : List Row), rowAddOk dC10.cols.names r) ∧
      1 ≤ the.budget0 ∧ ([[Cell.num 2], [Cell.num 1]] : List Row) ≠ []) ∧
    (∀ (fuel : ℕ) (s : SmoState),
      smoIters the (fun B R => B - R) { dC10 with rows := [[Cell.num 2], [Cell.num 1]] }
        fuel s ≤ fuel) :=
  ⟨⟨by decide, by decide, by decide⟩,
    (C2_smo_spec the dC10 [[Cell.num 2], [Cell.num 1]] (fun B R => B - R)
      (by decide) (by decide) (by decide)).1⟩

/-! ### C4: the finalized bin lists of a numeric column -/

/-- A well-formed numeric bin on column `att`: numeric endpoints in order,
strictly inside the sentinel range. -/
def RangeOk (att : ℕ) (b : BIN) : Prop :=
  b.att = att ∧ ∃ ql qh : ℚ, b.lo = Cell.num ql ∧ b.hi = Cell.num qh ∧
    ql ≤ qh ∧ -big < ql ∧ qh < big

/-- Adjacent bins strictly separated: each bin ends strictly before the
next one starts. -/
def SepChain (l : List BIN) : Prop :=
  l.Chain' (fun a b => Cell.ltB a.hi b.lo = true)

theorem pymin_num (a b : ℚ) : pymin (Cell.num a) (Cell.num b) = Cell.num (min a b) := by
  unfold pymin Cell.ltB
  by_cases h : b < a
  · simp [h, min_eq_right h.le]
  · simp [h, min_eq_left (not_lt.mp h)]

theorem pymax_num (a b : ℚ) : pymax (Cell.num a) (Cell.num b) = Cell.num (max a b) := by
  unfold pymax Cell.ltB
  by_cases h : a < b
  · simp [h, max_eq_right h.le]
  · simp [h, max_eq_left (not_lt.mp h)]

theorem pytrunc_mono {a b : ℚ} (h : a ≤ b) : pytrunc a ≤ pytrunc b := by
  unfold pytrunc
  by_cases ha : a < 0
  · by_cases hb : b < 0
    · rw [if_pos ha, if_pos hb]
      exact Int.ceil_le_ceil h
    · rw [if_pos ha, if_neg hb]
      push_neg at hb
      have h1 : ⌈a⌉ ≤ 0 := Int.ceil_le.mpr (by exact_mod_cast ha.le)
      have h2 : (0 : ℤ) ≤ ⌊b⌋ := Int.floor_nonneg.mpr hb
      omega
  · by_cases hb : b < 0
    · exact absurd (lt_of_le_of_lt h hb) ha
    · rw [if_neg ha, if_neg hb]
      exact Int.floor_le_floor h

theorem numKey_mono (cfg : Config) (nc : NUM) (hden : 0 < nc.hi - nc.lo + tiny)
    {a b : ℚ} (h : a ≤ b) : nc.binKey cfg a ≤ nc.binKey cfg b := by
  unfold NUM.binKey NUM.normQ
  apply min_le_min le_rfl
  apply pytrunc_mono
  apply mul_le_mul_of_nonneg_left _ (by positivity)
  exact (div_le_div_right hden).mpr (by linarith)

theorem numKey_anti (cfg : Config) (nc : NUM) (hden : nc.hi - nc.lo + tiny < 0)
    {a b : ℚ} (h : a ≤ b) : nc.binKey cfg b ≤ nc.binKey cfg a := by
  unfold NUM.binKey NUM.normQ
  apply min_le_min le_rfl
  apply pytrunc_mono
  apply mul_le_mul_of_nonneg_left _ (by positivity)
  exact div_le_div_of_nonpos_of_le hden.le (by linarith)

theorem numKey_const (cfg : Config) (nc : NUM) (hden : nc.hi - nc.lo + tiny = 0)
    (a b : ℚ) : nc.binKey cfg a = nc.binKey cfg b := by
  unfold NUM.binKey NUM.normQ
  rw [hden, div_zero, div_zero]

/-- The heart of the separation argument: two groups with distinct
equal-width keys whose endpoints share their group's key lie strictly on
opposite sides of each other, whatever the sign of the normalization
denominator. -/
theorem numKey_sep (cfg : Config) (nc : NUM) {ql qh ql' qh' : ℚ}
    (h1 : ql ≤ qh) (h2 : ql' ≤ qh')
    (e1 : nc.binKey cfg ql = nc.binKey cfg qh)
    (e2 : nc.binKey cfg ql' = nc.binKey cfg qh')
    (hne : nc.binKey cfg ql ≠ nc.binKey cfg ql') :
    qh < ql' ∨ qh' < ql := by
  by_contra hc
  push_neg at hc
  obtain ⟨hc1, hc2⟩ := hc
  rcases lt_trichotomy (nc.hi - nc.lo + tiny) 0 with hden | hden | hden
  · have k1 : nc.binKey cfg qh ≤ nc.binKey cfg ql' := numKey_anti cfg nc hden hc1
    have k2 : nc.binKey cfg qh' ≤ nc.binKey cfg ql := numKey_anti cfg nc hden hc2
    rw [← e1] at k1
    rw [← e2] at k2
    exact hne (le_antisymm k1 k2)
  · exact hne (numKey_const cfg nc hden ql ql')
  · have k1 : nc.binKey cfg ql' ≤ nc.binKey cfg qh := numKey_mono cfg nc hden hc1
    have k2 : nc.binKey cfg ql ≤ nc.binKey cfg qh' := numKey_mono cfg nc hden hc2
    rw [← e1] at k1
    rw [← e2] at k2
    exact hne (le_antisymm k2 k1)

theorem lookup_none_iff {K : Type} [DecidableEq K] (k : K) :
    ∀ out : List (K × BIN), out.lookup k = none ↔ k ∉ out.map Prod.fst
  | [] => by simp
  | (k', b) :: rest => by
    by_cases h : k = k'
    · subst h
      simp [List.lookup]
    · simp only [List.lookup, beq_eq_false_iff_ne.mpr h, List.map_cons, List.mem_cons]
      rw [lookup_none_iff k rest]
      simp [h]

/-- The dictionary-entry invariant of the grouping fold of `COL.bins` on a
numeric column: every bin is a well-formed numeric range strictly inside
the sentinel interval, and both endpoints carry their entry's key. -/
def BinOk (cfg : Config) (nc : NUM) (kb : (Cell ⊕ ℤ) × BIN) : Prop :=
  kb.2.att = nc.att ∧ ∃ ql qh : ℚ, kb.2.lo = Cell.num ql ∧ kb.2.hi = Cell.num qh ∧
    ql ≤ qh ∧ -big < ql ∧ qh < big ∧
    kb.1 = Sum.inr (nc.binKey cfg ql) ∧ kb.1 = Sum.inr (nc.binKey cfg qh)

theorem send2bin_inv (cfg : Config) (nc : NUM) (out : List ((Cell ⊕ ℤ) × BIN))
    (q : ℚ) (y : String) (hq1 : -big < q) (hq2 : q < big)
    (hout : ∀ kb ∈ out, BinOk cfg nc kb) (hnd : (out.map Prod.fst).Nodup) :
    (∀ kb ∈ send2bin (Col.binKey cfg (.num nc)) nc.att nc.txt out (Cell.num q) y,
      BinOk cfg nc kb) ∧
    ((send2bin (Col.binKey cfg (.num nc)) nc.att nc.txt out (Cell.num q) y).map
      Prod.fst).Nodup := by
  have hkey : Col.binKey cfg (Col.num nc) (Cell.num q) = Sum.inr (nc.binKey cfg q) := rfl
  have hmap : ∀ out' : List ((Cell ⊕ ℤ) × BIN),
      (∀ kb ∈ out', BinOk cfg nc kb) → (out'.map Prod.fst).Nodup →
      (∀ kb ∈ out'.map (fun p =>
          if p.1 = Col.binKey cfg (.num nc) (Cell.num q) then
            (p.1, p.2.add (Cell.num q) y)
          else p), BinOk cfg nc kb) ∧
      ((out'.map (fun p =>
          if p.1 = Col.binKey cfg (.num nc) (Cell.num q) then
            (p.1, p.2.add (Cell.num q) y)
          else p)).map Prod.fst).Nodup := by
    intro out' hok hnd'
    constructor
    · intro kb hkb
      obtain ⟨p, hp, hpe⟩ := List.mem_map.mp hkb
      by_cases hpk : p.1 = Col.binKey cfg (.num nc) (Cell.num q)
      · rw [if_pos hpk] at hpe
        obtain ⟨hatt, ql, qh, hlo, hhi, hle, hb1, hb2, hk1, hk2⟩ := hok p hp
        rw [← hpe]
        refine ⟨hatt, min q ql, max q qh, ?_, ?_, ?_, ?_, ?_, ?_, ?_⟩
        · show pymin (Cell.num q) p.2.lo = Cell.num (min q ql)
          rw [hlo, pymin_num]
        · show pymax (Cell.num q) p.2.hi = Cell.num (max q qh)
          rw [hhi, pymax_num]
        · exact le_trans (min_le_left q ql) (le_max_left q qh)
        · exact lt_min hq1 hb1
        · exact max_lt hq2 hb2
        · show p.1 = Sum.inr (nc.binKey cfg (min q ql))
          rcases min_choice q ql with hm | hm
          · rw [hm, hpk, hkey]
          · rw [hm, ← hk1]
        · show p.1 = Sum.inr (nc.binKey cfg (max q qh))
          rcases max_choice q qh with hm | hm
          · rw [hm, hpk, hkey]
          · rw [hm, ← hk2]
      · rw [if_neg hpk] at hpe
        rw [← hpe]
        exact hok p hp
    · have hfst : ((out'.map (fun p =>
          if p.1 = Col.binKey cfg (.num nc) (Cell.num q) then
            (p.1, p.2.add (Cell.num q) y)
          else p)).map Prod.fst) = out'.map Prod.fst := by
        rw [List.map_map]
        apply List.map_congr_left
        intro p _
        by_cases hpk : p.1 = Col.binKey cfg (.num nc) (Cell.num q)
        · simp [hpk]
        · simp [hpk]
      rw [hfst]
      exact hnd'
  rcases Classical.em ((Col.binKey cfg (Col.num nc) (Cell.num q)) ∈ out.map Prod.fst) with hm | hm
  · have hsend : send2bin (Col.binKey cfg (.num nc)) nc.att nc.txt out (Cell.num q) y =
        out.map (fun p =>
          if p.1 = Col.binKey cfg (.num nc) (Cell.num q) then
            (p.1, p.2.add (Cell.num q) y)
          else p) := by
      unfold send2bin
      simp only
      rw [if_neg (not_not_intro hm)]
    rw [hsend]
    exact hmap out hout hnd
  · have hsend : send2bin (Col.binKey cfg (.num nc)) nc.att nc.txt out (Cell.num q) y =
        (out ++ [(Col.binKey cfg (Col.num nc) (Cell.num q),
          ({ att := nc.att, txt := nc.txt, lo := Cell.num q, hi := Cell.num q,
             ys := [] } : BIN))]).map (fun p =>
          if p.1 = Col.binKey cfg (Col.num nc) (Cell.num q) then
            (p.1, p.2.add (Cell.num q) y)
          else p) := by
      unfold send2bin
      simp only
      rw [if_pos hm]
    rw [hsend]
    apply hmap
    · intro kb hkb
      rcases List.mem_append.mp hkb with hkb | hkb
      · exact hout kb hkb
      · rw [List.mem_singleton.mp hkb]
        exact ⟨rfl, q, q, rfl, rfl, le_refl q, hq1, hq2, hkey, hkey⟩
    · rw [List.map_append]
      apply List.Nodup.append hnd (by simp)
      intro a ha hb
      simp only [List.map_cons, List.map_nil, List.mem_singleton] at hb
      rw [hb] at ha
      exact hm ha

theorem binsRaw_fold_inv (cfg : Config) (nc : NUM) :
    ∀ (pairs : List (Cell × String)) (out : List ((Cell ⊕ ℤ) × BIN)),
      (∀ p ∈ pairs, ∃ q : ℚ, p.1 = Cell.num q ∧ -big < q ∧ q < big) →
      (∀ kb ∈ out, BinOk cfg nc kb) → (out.map Prod.fst).Nodup →
      (∀ kb ∈ pairs.foldl
          (fun o p => send2bin (Col.binKey cfg (.num nc)) nc.att nc.txt o p.1 p.2) out,
        BinOk cfg nc kb) ∧
      ((pairs.foldl
          (fun o p => send2bin (Col.binKey cfg (.num nc)) nc.att nc.txt o p.1 p.2)
          out).map Prod.fst).Nodup
  | [], out => fun _ hout hnd => ⟨hout, hnd⟩
  | p :: pairs, out => by
    intro hp hout hnd
    obtain ⟨q, hq, hq1, hq2⟩ := hp p (List.mem_cons_self p pairs)
    rw [List.foldl_cons]
    have hstep := send2bin_inv cfg nc out q p.2 hq1 hq2 hout hnd
    rw [← hq] at hstep
    exact binsRaw_fold_inv cfg nc pairs _
      (fun p' hp' => hp p' (List.mem_cons_of_mem p hp')) hstep.1 hstep.2

/-- Symmetric separation of two bins: one lies entirely strictly below the
other. -/
def Sep (a b : BIN) : Prop := Cell.ltB a.hi b.lo = true ∨ Cell.ltB b.hi a.lo = true

theorem sep_symm {a b : BIN} (h : Sep a b) : Sep b a := h.symm

/-- The rational under a numeric `lo` (junk `0` otherwise). -/
def loQ (b : BIN) : ℚ :=
  match b.lo with
  | Cell.num q => q
  | _ => 0

/-- A totalized version of the `lo`-comparison used to sort bins. -/
def loLe (a b : BIN) : Bool := decide (loQ a ≤ loQ b)

theorem loLe_trans : ∀ a b c : BIN, loLe a b → loLe b c → loLe a c := by
  intro a b c hab hbc
  unfold loLe at *
  rw [decide_eq_true_eq] at *
  exact le_trans hab hbc

theorem loLe_total : ∀ a b : BIN, loLe a b || loLe b a := by
  intro a b
  unfold loLe
  rcases le_total (loQ a) (loQ b) with h | h
  · simp [h]
  · simp [h]

theorem mergeSort_lo_switch (l : List BIN) (hl : ∀ b ∈ l, ∃ q : ℚ, b.lo = Cell.num q) :
    l.mergeSort (fun a b => Cell.leB a.lo b.lo) = l.mergeSort loLe := by
  have h := @List.map_mergeSort BIN BIN (fun a b => Cell.leB a.lo b.lo) loLe id l ?_
  · simpa using h
  · intro a ha b hb
    obtain ⟨qa, hqa⟩ := hl a ha
    obtain ⟨qb, hqb⟩ := hl b hb
    show Cell.leB a.lo b.lo = loLe a b
    unfold loLe loQ
    rw [hqa, hqb]
    rfl

theorem chain_of_sorted_sep (att : ℕ) : ∀ l : List BIN, (∀ b ∈ l, RangeOk att b) →
    l.Pairwise (fun a b => (loLe a b = true) ∧ Sep a b) → SepChain l
  | [] => fun _ _ => List.chain'_nil
  | [_] => fun _ _ => List.chain'_singleton _
  | a :: b :: l => by
    intro hok hp
    obtain ⟨hab, htail⟩ := List.pairwise_cons.mp hp
    have h1 := hab b (List.mem_cons_self b l)
    unfold SepChain
    rw [List.chain'_cons]
    constructor
    · obtain ⟨-, qla, qha, hloa, hhia, hlea, -, -⟩ :=
        hok a (List.mem_cons_self a (b :: l))
      obtain ⟨-, qlb, qhb, hlob, hhib, hleb, -, -⟩ :=
        hok b (List.mem_cons_of_mem a (List.mem_cons_self b l))
      rcases h1.2 with hs | hs
      · exact hs
      · exfalso
        rw [hhib, hloa] at hs
        have hlt : qhb < qla := of_decide_eq_true hs
        have hle : qla ≤ qlb := by
          have h2 := h1.1
          unfold loLe loQ at h2
          rw [hloa, hlob] at h2
          exact of_decide_eq_true h2
        linarith
    · exact chain_of_sorted_sep att (b :: l)
        (fun x hx => hok x (List.mem_cons_of_mem a hx)) htail

theorem binsSorted_inv (cfg : Config) (nc : NUM) (classes : Classes)
    (hp : ∀ p ∈ classPairs nc.att classes,
      ∃ q : ℚ, p.1 = Cell.num q ∧ -big < q ∧ q < big) :
    (∀ b ∈ binsSorted (Col.binKey cfg (.num nc)) nc.att nc.txt classes,
      RangeOk nc.att b) ∧
    SepChain (binsSorted (Col.binKey cfg (.num nc)) nc.att nc.txt classes) := by
  obtain ⟨hok, hnd⟩ := binsRaw_fold_inv cfg nc (classPairs nc.att classes) []
    hp (by simp) (by simp)
  have hraw : binsRaw (Col.binKey cfg (.num nc)) nc.att nc.txt classes =
      (classPairs nc.att classes).foldl
        (fun o p => send2bin (Col.binKey cfg (.num nc)) nc.att nc.txt o p.1 p.2) [] := rfl
  rw [← hraw] at hok hnd
  have hmem : ∀ b ∈ (binsRaw (Col.binKey cfg (.num nc)) nc.att nc.txt classes).map
      Prod.snd, RangeOk nc.att b := by
    intro b hb
    obtain ⟨p, hp', rfl⟩ := List.mem_map.mp hb
    obtain ⟨hatt, ql, qh, h1, h2, h3, h4, h5, -, -⟩ := hok p hp'
    exact ⟨hatt, ql, qh, h1, h2, h3, h4, h5⟩
  have hsortmem : ∀ b ∈ binsSorted (Col.binKey cfg (.num nc)) nc.att nc.txt classes,
      RangeOk nc.att b := by
    intro b hb
    exact hmem b (List.mem_mergeSort.mp hb)
  refine ⟨hsortmem, ?_⟩
  have hpsep : ((binsRaw (Col.binKey cfg (.num nc)) nc.att nc.txt classes).map
      Prod.snd).Pairwise Sep := by
    rw [List.pairwise_map]
    have hkeys := List.pairwise_map.mp hnd
    refine hkeys.imp_of_mem ?_
    intro p p' hp1 hp2 hne
    obtain ⟨-, ql, qh, hlo, hhi, hle, -, -, hk1, hk2⟩ := hok p hp1
    obtain ⟨-, ql', qh', hlo', hhi', hle', -, -, hk1', hk2'⟩ := hok p' hp2
    have e1 : nc.binKey cfg ql = nc.binKey cfg qh := Sum.inr.inj (hk1.symm.trans hk2)
    have e2 : nc.binKey cfg ql' = nc.binKey cfg qh' := Sum.inr.inj (hk1'.symm.trans hk2')
    have hkne : nc.binKey cfg ql ≠ nc.binKey cfg ql' := by
      intro he
      exact hne (by rw [hk1, hk1', he])
    rcases numKey_sep cfg nc hle hle' e1 e2 hkne with hlt | hlt
    · left
      rw [hhi, hlo']
      exact decide_eq_true hlt
    · right
      rw [hhi', hlo]
      exact decide_eq_true hlt
  have hsep : (binsSorted (Col.binKey cfg (.num nc)) nc.att nc.txt classes).Pairwise
      Sep := by
    unfold binsSorted
    exact ((List.mergeSort_perm _ _).pairwise_iff @sep_symm).mpr hpsep
  have hsorted : (binsSorted (Col.binKey cfg (.num nc)) nc.att nc.txt classes).Pairwise
      (fun a b => loLe a b = true) := by
    unfold binsSorted
    rw [mergeSort_lo_switch _ (fun b hb => by
      obtain ⟨-, ql, -, hlo, -⟩ := hmem b hb
      exact ⟨ql, hlo⟩)]
    exact @List.sorted_mergeSort _ loLe loLe_trans loLe_total _
  exact chain_of_sorted_sep nc.att _ hsortmem (hsorted.and hsep)

theorem mergeSome_span {a b : BIN} {small : ℚ} {c : BIN}
    (h : BIN.merge a b small = some c) :
    c.att = a.att ∧ c.lo = pymin a.lo b.lo ∧ c.hi = pymax a.hi b.hi := by
  by_cases hat : a.att = b.att
  · have hform : BIN.merge a b small =
        if ((entropy a.ys).2 : ℚ) < small ∨ ((entropy b.ys).2 : ℚ) < small then
          some (BIN.span a b)
        else if rleB (entropy (cadd a.ys b.ys)).1
            ((((entropy a.ys).2 : ℝ) * (entropy a.ys).1 +
                ((entropy b.ys).2 : ℝ) * (entropy b.ys).1) /
              ((entropy (cadd a.ys b.ys)).2 : ℝ)) then
          some (BIN.span a b)
        else none := by
      unfold BIN.merge BIN.span
      rw [if_pos hat]
    rw [hform] at h
    by_cases h1 : ((entropy a.ys).2 : ℚ) < small ∨ ((entropy b.ys).2 : ℚ) < small
    · rw [if_pos h1] at h
      obtain rfl : BIN.span a b = c := Option.some.inj h
      exact ⟨rfl, rfl, rfl⟩
    · rw [if_neg h1] at h
      by_cases h2 : rleB (entropy (cadd a.ys b.ys)).1
          ((((entropy a.ys).2 : ℝ) * (entropy a.ys).1 +
              ((entropy b.ys).2 : ℝ) * (entropy b.ys).1) /
            ((entropy (cadd a.ys b.ys)).2 : ℝ)) = true
      · rw [if_pos h2] at h
        obtain rfl : BIN.span a b = c := Option.some.inj h
        exact ⟨rfl, rfl, rfl⟩
      · rw [if_neg (by simpa using h2)] at h
        exact absurd h (by simp)
  · unfold BIN.merge at h
    rw [if_neg hat] at h
    exact absurd h (by simp)

theorem headlo_of_map_eq {l₁ l₂ : List BIN}
    (h : l₁.head?.map BIN.lo = l₂.head?.map BIN.lo) {y : BIN}
    (hy : l₁.head? = some y) : ∃ z, l₂.head? = some z ∧ y.lo = z.lo := by
  rw [hy] at h
  cases hl : l₂.head? with
  | none =>
    rw [hl] at h
    simp at h
  | some z =>
    rw [hl] at h
    refine ⟨z, rfl, ?_⟩
    simpa using h

theorem mergesScan_inv (att : ℕ) (m : BIN → BIN → Option BIN)
    (hm : ∀ a b c, m a b = some c →
      c.att = a.att ∧ c.lo = pymin a.lo b.lo ∧ c.hi = pymax a.hi b.hi) :
    ∀ l : List BIN, (∀ b ∈ l, RangeOk att b) → SepChain l →
      (∀ b ∈ mergesScan m l, RangeOk att b) ∧ SepChain (mergesScan m l) ∧
      (mergesScan m l).head?.map BIN.lo = l.head?.map BIN.lo ∧
      (mergesScan m l = [] ↔ l = [])
  | [] => fun _ _ => ⟨fun b hb => absurd hb (List.not_mem_nil b), List.chain'_nil,
      rfl, Iff.rfl⟩
  | [a] => fun hok hc => ⟨hok, hc, rfl, Iff.rfl⟩
  | a :: b :: rest => by
    intro hok hc
    have hRab : Cell.ltB a.hi b.lo = true := (List.chain'_cons.mp hc).1
    have hcbr : SepChain (b :: rest) := (List.chain'_cons.mp hc).2
    have hcr : SepChain rest := hcbr.tail
    obtain ⟨haatt, qla, qha, hloa, hhia, hlea, hba, hba'⟩ :=
      hok a (List.mem_cons_self a (b :: rest))
    obtain ⟨hbatt, qlb, qhb, hlob, hhib, hleb, hbb, hbb'⟩ :=
      hok b (List.mem_cons_of_mem a (List.mem_cons_self b rest))
    have hsepq : qha < qlb := by
      rw [hhia, hlob] at hRab
      exact of_decide_eq_true hRab
    cases hma : m a b with
    | some c =>
      obtain ⟨hcat, hclo, hchi⟩ := hm a b c hma
      have hclo' : c.lo = Cell.num qla := by
        rw [hclo, hloa, hlob, pymin_num, min_eq_left (by linarith)]
      have hchi' : c.hi = Cell.num qhb := by
        rw [hchi, hhia, hhib, pymax_num, max_eq_right (by linarith)]
      have hscan : mergesScan m (a :: b :: rest) = c :: mergesScan m rest := by
        simp only [mergesScan, hma]
      obtain ⟨ih1, ih2, ih3, ih4⟩ := mergesScan_inv att m hm rest
        (fun x hx => hok x (List.mem_cons_of_mem a (List.mem_cons_of_mem b hx))) hcr
      rw [hscan]
      refine ⟨?_, ?_, ?_, by simp⟩
      · intro x hx
        rcases List.mem_cons.mp hx with rfl | hx
        · exact ⟨hcat.trans haatt, qla, qhb, hclo', hchi', by linarith, hba, hbb'⟩
        · exact ih1 x hx
      · rw [SepChain, List.chain'_cons']
        refine ⟨?_, ih2⟩
        intro h' hh'
        obtain ⟨z, hz, hlz⟩ := headlo_of_map_eq ih3 (Option.mem_def.mp hh')
        cases rest with
        | nil => simp at hz
        | cons r rs =>
          have hzr : r = z := by simpa using hz
          have hRbr : Cell.ltB b.hi r.lo = true := (List.chain'_cons.mp hcbr).1
          rw [hchi, hhia, hhib, pymax_num, max_eq_right (by linarith : qha ≤ qhb),
            hlz, ← hzr]
          rw [hhib] at hRbr
          exact hRbr
      · simp [hclo', hloa]
    | none =>
      have hscan : mergesScan m (a :: b :: rest) = a :: mergesScan m (b :: rest) := by
        simp only [mergesScan, hma]
      obtain ⟨ih1, ih2, ih3, ih4⟩ := mergesScan_inv att m hm (b :: rest)
        (fun x hx => hok x (List.mem_cons_of_mem a hx)) hcbr
      rw [hscan]
      refine ⟨?_, ?_, by simp, by simp⟩
      · intro x hx
        rcases List.mem_cons.mp hx with rfl | hx
        · exact hok x (List.mem_cons_self x (b :: rest))
        · exact ih1 x hx
      · rw [SepChain, List.chain'_cons']
        refine ⟨?_, ih2⟩
        intro h' hh'
        obtain ⟨z, hz, hlz⟩ := headlo_of_map_eq ih3 (Option.mem_def.mp hh')
        have hzb : b = z := by simpa using hz
        rw [hlz, ← hzb]
        exact hRab

theorem merges_inv (att : ℕ) (m : BIN → BIN → Option BIN)
    (hm : ∀ a b c, m a b = some c →
      c.att = a.att ∧ c.lo = pymin a.lo b.lo ∧ c.hi = pymax a.hi b.hi)
    (l : List BIN) (hok : ∀ b ∈ l, RangeOk att b) (hc : SepChain l) :
    (∀ b ∈ merges l m, RangeOk att b) ∧ SepChain (merges l m) ∧
      (merges l m = [] ↔ l = []) := by
  unfold merges
  by_cases hlen : (mergesScan m l).length = l.length
  · rw [dif_pos hlen]
    exact ⟨hok, hc, Iff.rfl⟩
  · rw [dif_neg hlen]
    obtain ⟨s1, s2, _, s4⟩ := mergesScan_inv att m hm l hok hc
    obtain ⟨r1, r2, r3⟩ := merges_inv att m hm (mergesScan m l) s1 s2
    exact ⟨r1, r2, r3.trans s4⟩
termination_by l.length
decreasing_by
  exact Nat.lt_of_le_of_ne (mergesScan_length_le m l) hlen

theorem selects_on_num (b' : BIN) (r : Row) (la ha v : ℚ)
    (hlo : b'.lo = Cell.num la) (hhi : b'.hi = Cell.num ha) (hlh : la < ha)
    (hx : r.getD b'.att Cell.missing = Cell.num v) :
    b'.selects r = (decide (la ≤ v) && decide (v < ha)) := by
  unfold BIN.selects
  rw [hx, hlo, hhi]
  apply Bool.eq_iff_iff.mpr
  simp only [Bool.or_eq_true, Bool.and_eq_true, beq_iff_eq, decide_eq_true_eq,
    Cell.leB, Cell.ltB, Cell.num.injEq]
  constructor
  · rintro ((h | ⟨h1, h2⟩) | ⟨h1, h2⟩)
    · exact absurd h (by simp)
    · exact absurd (h1.trans h2) (ne_of_lt hlh)
    · exact ⟨h1, h2⟩
  · rintro ⟨h1, h2⟩
    exact Or.inr ⟨h1, h2⟩

theorem stitchGo_inv (att : ℕ) : ∀ (l : List BIN) (ph : ℚ),
    (∀ b ∈ l, RangeOk att b) → SepChain l →
    (∀ y ∈ l.head?, ∃ ql : ℚ, y.lo = Cell.num ql ∧ ph < ql) → l ≠ [] →
    stitchGo (Cell.num ph) l ≠ [] ∧
    (stitchGo (Cell.num ph) l).head?.map BIN.lo = some (Cell.num ph) ∧
    (stitchGo (Cell.num ph) l).getLast?.map BIN.hi = some (Cell.num big) ∧
    (stitchGo (Cell.num ph) l).Chain' (fun a b => b.lo = a.hi) ∧
    (stitchGo (Cell.num ph) l).Chain' (fun a b => Cell.ltB a.lo b.lo = true) ∧
    (∀ (r : Row) (v : ℚ), r.getD att Cell.missing = Cell.num v → v < big →
      (stitchGo (Cell.num ph) l).countP (fun bb => bb.selects r) =
        if ph ≤ v then 1 else 0)
  | [], _, _, _, _, hne => absurd rfl hne
  | [b], ph, hok, _, hhead, _ => by
    obtain ⟨hatt, ql, qh, hlo, hhi, hle, hb1, hb2⟩ := hok b (List.mem_cons_self b [])
    obtain ⟨ql', hlo', hph⟩ := hhead b (by simp)
    rw [hlo] at hlo'
    have hql : ql = ql' := Cell.num.inj hlo'
    have hphq : ph < ql := by
      rw [hql]
      exact hph
    have hphb : ph < big := by linarith
    refine ⟨by simp [stitchGo], rfl, rfl, List.chain'_singleton _,
      List.chain'_singleton _, ?_⟩
    intro r v hx hv
    show List.countP _ [{ b with lo := Cell.num ph, hi := Cell.num big }] = _
    rw [List.countP_singleton]
    rw [selects_on_num _ r ph big v rfl rfl hphb
      (by
        show List.getD r b.att Cell.missing = Cell.num v
        rw [hatt]
        exact hx)]
    by_cases h1 : ph ≤ v
    · simp [h1, hv]
    · simp [h1]
  | b :: b' :: rest, ph, hok, hchain, hhead, _ => by
    obtain ⟨hatt, ql, qh, hlo, hhi, hle, hb1, hb2⟩ :=
      hok b (List.mem_cons_self b (b' :: rest))
    obtain ⟨hbatt', qlb', qhb', hlob', hhib', hleb', hbb1', hbb2'⟩ :=
      hok b' (List.mem_cons_of_mem b (List.mem_cons_self b' rest))
    obtain ⟨ql', hlo', hph⟩ := hhead b (by simp)
    rw [hlo] at hlo'
    have hql : ql = ql' := Cell.num.inj hlo'
    have hphq : ph < ql := by
      rw [hql]
      exact hph
    have hRbb' : Cell.ltB b.hi b'.lo = true := (List.chain'_cons.mp hchain).1
    have hqlt : qh < qlb' := by
      rw [hhi, hlob'] at hRbb'
      exact of_decide_eq_true hRbb'
    have hgo : stitchGo (Cell.num ph) (b :: b' :: rest) =
        { b with lo := Cell.num ph } :: stitchGo b.hi (b' :: rest) := rfl
    obtain ⟨ih0, ih1, ih2, ih3, ih4, ih5⟩ := stitchGo_inv att (b' :: rest) qh
      (fun x hx => hok x (List.mem_cons_of_mem b hx))
      (List.chain'_cons.mp hchain).2
      (by
        intro y hy
        have hyb : b' = y := by simpa using hy
        exact ⟨qlb', by rw [← hyb, hlob'], hqlt⟩)
      (by simp)
    rw [hgo, hhi]
    refine ⟨by simp, rfl, ?_, ?_, ?_, ?_⟩
    · cases hst : stitchGo (Cell.num qh) (b' :: rest) with
      | nil => exact absurd hst ih0
      | cons z zs =>
        rw [List.getLast?_cons_cons]
        rw [hst] at ih2
        exact ih2
    · rw [List.chain'_cons']
      refine ⟨?_, ih3⟩
      intro y hy
      have hys : (stitchGo (Cell.num qh) (b' :: rest)).head? = some y :=
        Option.mem_def.mp hy
      have h1c := ih1
      rw [hys] at h1c
      show y.lo = Cell.num qh
      simpa using h1c
    · rw [List.chain'_cons']
      refine ⟨?_, ih4⟩
      intro y hy
      have hys : (stitchGo (Cell.num qh) (b' :: rest)).head? = some y :=
        Option.mem_def.mp hy
      have h1c := ih1
      rw [hys] at h1c
      have hylo : y.lo = Cell.num qh := by simpa using h1c
      show Cell.ltB (Cell.num ph) y.lo = true
      rw [hylo]
      exact decide_eq_true (by linarith)
    · intro r v hx hv
      rw [List.countP_cons]
      rw [ih5 r v hx hv]
      have hsel : BIN.selects { b with lo := Cell.num ph, hi := Cell.num qh } r =
          (decide (ph ≤ v) && decide (v < qh)) := by
        apply selects_on_num _ r ph qh v rfl rfl (by linarith)
        show List.getD r b.att Cell.missing = Cell.num v
        rw [hatt]
        exact hx
      have hrec : ({ b with lo := Cell.num ph, hi := Cell.num qh } : BIN) =
          { att := b.att, txt := b.txt, lo := Cell.num ph, hi := Cell.num qh,
            ys := b.ys } := rfl
      rw [hrec] at hsel
      rw [hsel]
      by_cases h1 : ph ≤ v
      · by_cases h2 : v < qh
        · simp [h1, h2, not_le.mpr h2]
        · have h3 : qh ≤ v := not_lt.mp h2
          simp [h1, h2, h3]
      · have h2 : ¬ qh ≤ v := by
          intro hc
          exact h1 (by linarith)
        simp [h1, h2]

theorem stitch_eq_go : ∀ l : List BIN, l ≠ [] → stitch l = stitchGo (Cell.num (-big)) l
  | [_], _ => rfl
  | _ :: _ :: _, _ => rfl

theorem stitch_inv (att : ℕ) (l : List BIN) (hok : ∀ b ∈ l, RangeOk att b)
    (hchain : SepChain l) (hne : l ≠ []) :
    stitch l ≠ [] ∧
    (stitch l).head?.map BIN.lo = some (Cell.num (-big)) ∧
    (stitch l).getLast?.map BIN.hi = some (Cell.num big) ∧
    (stitch l).Chain' (fun a b => b.lo = a.hi) ∧
    (stitch l).Chain' (fun a b => Cell.ltB a.lo b.lo = true) ∧
    (∀ (r : Row) (v : ℚ), r.getD att Cell.missing = Cell.num v → -big < v → v < big →
      (stitch l).countP (fun bb => bb.selects r) = 1) := by
  rw [stitch_eq_go l hne]
  obtain ⟨g0, g1, g2, g3, g4, g5⟩ := stitchGo_inv att l (-big) hok hchain
    (by
      intro y hy
      obtain ⟨-, ql, -, hlo, -, -, hb1, -⟩ := hok y (by
        cases l with
        | nil => simp at hy
        | cons z zs =>
          have : z = y := by simpa using hy
          rw [← this]
          exact List.mem_cons_self z zs)
      exact ⟨ql, hlo, hb1⟩)
    hne
  refine ⟨g0, g1, g2, g3, g4, ?_⟩
  intro r v hx hv1 hv2
  rw [g5 r v hx hv2, if_pos hv1.le]

theorem send2bin_length {K : Type} [DecidableEq K] (binOf : Cell → K) (att : ℕ)
    (txt : String) (out : List (K × BIN)) (x : Cell) (y : String) :
    out.length ≤ (send2bin binOf att txt out x y).length := by
  unfold send2bin
  simp only [List.length_map]
  by_cases h : binOf x ∉ out.map Prod.fst
  · rw [if_pos h]
    simp
  · rw [if_neg h]

theorem foldl_send2bin_length {K : Type} [DecidableEq K] (binOf : Cell → K) (att : ℕ)
    (txt : String) :
    ∀ (pairs : List (Cell × String)) (out : List (K × BIN)),
      out.length ≤
        (pairs.foldl (fun o p => send2bin binOf att txt o p.1 p.2) out).length
  | [], _ => le_refl _
  | p :: ps, out => by
    rw [List.foldl_cons]
    exact le_trans (send2bin_length binOf att txt out p.1 p.2)
      (foldl_send2bin_length binOf att txt ps _)

theorem binsSorted_ne {K : Type} [DecidableEq K] (binOf : Cell → K) (att : ℕ)
    (txt : String) (classes : Classes) (h : classPairs att classes ≠ []) :
    binsSorted binOf att txt classes ≠ [] := by
  unfold binsSorted binsRaw
  cases hcp : classPairs att classes with
  | nil => exact absurd hcp h
  | cons p ps =>
    intro hcon
    have hlen := congrArg List.length hcon
    simp only [List.length_mergeSort, List.length_map, List.length_nil] at hlen
    rw [List.foldl_cons] at hlen
    have h1 : (send2bin binOf att txt [] p.1 p.2).length = 1 := by
      unfold send2bin
      simp
    have h2 := foldl_send2bin_length binOf att txt ps (send2bin binOf att txt [] p.1 p.2)
    omega

/-- C4: on a numeric column with at least one non-missing value, all values
strictly inside the sentinel range, the finalized bin list of the
Discretizer is nonempty, starts at `-big` ("negative infinity"), ends at
`big` ("positive infinity"), is contiguous (each bin's `lo` is the previous
bin's `hi`), is strictly ordered by `lo`, and every non-missing original
value of that column is selected by exactly one bin. -/
theorem C4_bins_spec (cfg : Config) (nc : NUM) (classes : Classes)
    (hvals : ∀ p ∈ classPairs nc.att classes,
      ∃ q : ℚ, p.1 = Cell.num q ∧ -big < q ∧ q < big)
    (hne : classPairs nc.att classes ≠ []) :
    Col.bins cfg (Col.num nc) classes ≠ [] ∧
    (Col.bins cfg (Col.num nc) classes).head?.map BIN.lo = some (Cell.num (-big)) ∧
    (Col.bins cfg (Col.num nc) classes).getLast?.map BIN.hi = some (Cell.num big) ∧
    (Col.bins cfg (Col.num nc) classes).Chain' (fun a b => b.lo = a.hi) ∧
    (Col.bins cfg (Col.num nc) classes).Chain' (fun a b => Cell.ltB a.lo b.lo = true) ∧
    (∀ (y : String) (rows : List Row) (r : Row), (y, rows) ∈ classes → r ∈ rows →
      ∀ v : ℚ, r.getD nc.att Cell.missing = Cell.num v →
        (Col.bins cfg (Col.num nc) classes).countP (fun b => b.selects r) = 1) := by
  have hbins : Col.bins cfg (Col.num nc) classes =
      stitch (merges (binsSorted (Col.binKey cfg (Col.num nc)) nc.att nc.txt classes)
        (fun a b => a.merge b
          (((classes.map (fun p => p.2.length)).sum : ℚ) / (cfg.Bins : ℚ)))) := rfl
  obtain ⟨hok_s, hchain_s⟩ := binsSorted_inv cfg nc classes hvals
  have hne_s := binsSorted_ne (Col.binKey cfg (Col.num nc)) nc.att nc.txt classes hne
  obtain ⟨hok_m, hchain_m, hne_m⟩ := merges_inv nc.att
    (fun a b => a.merge b
      (((classes.map (fun p => p.2.length)).sum : ℚ) / (cfg.Bins : ℚ)))
    (fun a b c h => mergeSome_span h)
    (binsSorted (Col.binKey cfg (Col.num nc)) nc.att nc.txt classes) hok_s hchain_s
  have hne_m' : merges (binsSorted (Col.binKey cfg (Col.num nc)) nc.att nc.txt classes)
      (fun a b => a.merge b
        (((classes.map (fun p => p.2.length)).sum : ℚ) / (cfg.Bins : ℚ))) ≠ [] := by
    intro hcon
    exact hne_s (hne_m.mp hcon)
  obtain ⟨s0, s1, s2, s3, s4, s5⟩ := stitch_inv nc.att _ hok_m hchain_m hne_m'
  rw [hbins]
  refine ⟨s0, s1, s2, s3, s4, ?_⟩
  intro y rows r hcy hr v hrv
  have hpmem : (Cell.num v, y) ∈ classPairs nc.att classes := by
    unfold classPairs
    apply List.mem_flatMap.mpr
    refine ⟨(y, rows), hcy, ?_⟩
    apply List.mem_filterMap.mpr
    refine ⟨r, hr, ?_⟩
    show (if (List.getD r nc.att Cell.missing) = Cell.missing then none
      else some (List.getD r nc.att Cell.missing, y)) = some (Cell.num v, y)
    rw [hrv]
    simp
  obtain ⟨q, hq, hq1, hq2⟩ := hvals (Cell.num v, y) hpmem
  have hvq : v = q := Cell.num.inj hq
  exact s5 r v hrv (by rw [hvq]; exact hq1) (by rw [hvq]; exact hq2)

/-- The concrete numeric column summary used by the C4 witness. -/
def numC4 : NUM :=
  { n := 3, att := 0, txt := "A", mu := 4, m2 := 0, lo := 1, hi := 9, heaven := 1 }

/-- The concrete class partition `{"best": [[1],[2]], "rest": [[9]]}` used
by the C4 witness. -/
def classesC4 : Classes :=
  [("best", [[Cell.num 1], [Cell.num 2]]), ("rest", [[Cell.num 9]])]

/-- Witness for `C4_bins_spec` on a concrete one-column dataset: the class
partition has numeric values inside the sentinel range and at least one
value. -/
theorem C4_bins_spec_witness :
    ((∀ p ∈ classPairs numC4.att classesC4,
        ∃ q : ℚ, p.1 = Cell.num q ∧ -big < q ∧ q < big) ∧
      classPairs numC4.att classesC4 ≠ []) ∧
    Col.bins the (Col.num numC4) classesC4 ≠ [] := by
  have hv : ∀ p ∈ classPairs numC4.att classesC4,
      ∃ q : ℚ, p.1 = Cell.num q ∧ -big < q ∧ q < big := by
    intro p hp
    have hcp : classPairs numC4.att classesC4 =
        [(Cell.num 1, "best"), (Cell.num 2, "best"), (Cell.num 9, "rest")] := rfl
    rw [hcp] at hp
    rcases List.mem_cons.mp hp with rfl | hp
    · exact ⟨1, rfl, by decide, by decide⟩
    rcases List.mem_cons.mp hp with rfl | hp
    · exact ⟨2, rfl, by decide, by decide⟩
    rcases List.mem_cons.mp hp with rfl | hp
    · exact ⟨9, rfl, by decide, by decide⟩
    · exact absurd hp (List.not_mem_nil p)
  exact ⟨⟨hv, by decide⟩, (C4_bins_spec the numC4 classesC4 hv (by decide)).1⟩

end Ez
